import Mathlib

/-!
Verification development for the `apt-repo-builder` Debian package / APT
repository builder.  The Go sources of the `deb` package (package model,
repository model, control-file codec, version bumping) are shallowly
embedded below: pure Go functions become Lean functions over `String`,
`List` and explicit records; Go's `map[string]string` is modelled as an
association list whose list order stands for the (unspecified) map
iteration order; byte-level framing codecs (gzip, tar, ar) that are
external libraries in the source are modelled as the identity on
structured entry lists.  The SHA-256 step of the package digest is
modelled as the identity on the absorbed record stream: two digests are
equal in the model exactly when the byte streams fed to the hash are
equal (an ideal, collision-free hash).  The MD5 helper used for the
`md5sums` control member is likewise an external library; serialization
is parameterized by it.
-/

namespace AptRepo

/-! ## Go string primitives

The Go sources use `strings.Split`, `strings.TrimSpace`,
`strings.HasPrefix`, `strings.TrimPrefix`, `strings.Contains`,
`strings.Join`, `strings.SplitN(line, ":", 2)`, `strings.ReplaceAll`,
`strings.LastIndex` and `filepath.Base`.  They are reproduced here over
`List Char` (Lean's `String` is a wrapper around `List Char`), so that
the parsing proofs can proceed by ordinary list induction. -/

/-- Go `len(s)`: the UTF-8 byte length of a string. -/
def goLen (s : String) : Nat := s.utf8ByteSize

/-- `unicode.IsSpace` restricted to the Latin-1 range (space, \t, \n,
\v, \f, \r, NEL, NBSP); White_Space code points above U+00FF are not
modelled (none appear in any input considered here). -/
def isGoSpace (c : Char) : Bool :=
  c == ' ' || c == '\t' || c == '\n' || c == Char.ofNat 11 ||
  c == Char.ofNat 12 || c == '\r' || c == Char.ofNat 0x85 || c == Char.ofNat 0xA0

/-- Leading Go-whitespace removed. -/
def trimLeftCh (l : List Char) : List Char := l.dropWhile isGoSpace

/-- Trailing Go-whitespace removed. -/
def trimRightCh (l : List Char) : List Char := (l.reverse.dropWhile isGoSpace).reverse

/-- Go `strings.TrimSpace`. -/
def goTrim (s : String) : String := ⟨trimRightCh (trimLeftCh s.data)⟩

/-- Go `strings.HasPrefix`. -/
def goHasPrefix (s pre : String) : Bool := pre.data.isPrefixOf s.data

/-- Go `strings.TrimPrefix`. -/
def goTrimPrefix (s pre : String) : String :=
  if goHasPrefix s pre then ⟨s.data.drop pre.data.length⟩ else s

/-- Go `strings.Contains(s, string(c))` for a one-character needle. -/
def goContainsChar (s : String) (c : Char) : Bool := s.data.contains c

/-- Go `strings.Split(s, sep)` for a one-character separator, on
character lists.  Always returns at least one group. -/
def splitCh (sep : Char) : List Char → List (List Char)
  | [] => [[]]
  | c :: cs =>
    if c = sep then [] :: splitCh sep cs
    else
      match splitCh sep cs with
      | [] => [[c]]
      | g :: gs => (c :: g) :: gs

/-- Go `strings.Split` for a one-character separator. -/
def goSplit (s : String) (sep : Char) : List String :=
  (splitCh sep s.data).map String.mk

/-- Go `strings.Join`. -/
def goJoin : List String → String → String
  | [], _ => ""
  | [s], _ => s
  | s :: rest, sep => s ++ sep ++ goJoin rest sep

/-- The split of `strings.SplitN(s, ":", 2)`-style: the part before the
first occurrence of `sep` and the part after it, when `sep` occurs. -/
def splitFirst (sep : Char) : List Char → Option (List Char × List Char)
  | [] => none
  | c :: cs =>
    if c = sep then some ([], cs)
    else (splitFirst sep cs).map (fun p => (c :: p.1, p.2))

/-- Go `strings.LastIndex(s, string(c))`, as a character index. -/
def lastIndexCh (l : List Char) (c : Char) : Option Nat :=
  match l with
  | [] => none
  | x :: xs =>
    match lastIndexCh xs c with
    | some i => some (i + 1)
    | none => if x = c then some 0 else none

/-- Go `strings.ReplaceAll(s, "//", "/")`: left-to-right,
non-overlapping. -/
def squashSlashes : List Char → List Char
  | '/' :: '/' :: rest => '/' :: squashSlashes rest
  | c :: rest => c :: squashSlashes rest
  | [] => []

/-- Go `filepath.Base` restricted to the shapes the codec produces
(no trailing slash): the part after the last `/`, the whole string if
it has no `/`, `"."` for the empty path. -/
def baseName (s : String) : String :=
  if s = "" then "."
  else
    match (splitCh '/' s.data).getLast? with
    | some l => ⟨l⟩
    | none => ⟨s.data⟩

/-! ## Data model (`Package`, `Metadata`, `Scripts`, `File`)

Mirrors the Go structs.  `ExtraFields` and `ExtraControlFiles` are Go
`map[string]string` values, modelled as association lists whose order
stands for the map's (unspecified) iteration order.  `File.ModTime` is
omitted: it only flows into archive headers, is explicitly excluded
from the digest, and no claim mentions it. -/

/-- The payload `File` struct (DestPath, Mode, Body, IsConf). -/
structure PFile where
  destPath : String
  mode : Int
  body : String
  isConf : Bool
deriving DecidableEq, Repr

/-- The five maintainer scripts. -/
structure Scripts where
  preInst : String
  postInst : String
  preRm : String
  postRm : String
  config : String
deriving DecidableEq, Repr

/-- The empty `Scripts` value. -/
def Scripts.empty : Scripts := ⟨"", "", "", "", ""⟩

/-- The `Metadata` struct (the Debian control fields). -/
structure Metadata where
  package : String
  version : String
  architecture : String
  maintainer : String
  description : String
  sect : String
  priority : String
  homepage : String
  essential : Bool
  depends : List String
  preDepends : List String
  recommends : List String
  suggests : List String
  enhances : List String
  conflicts : List String
  breaks : List String
  replaces : List String
  provides : List String
  builtUsing : String
  source : String
  extraFields : List (String × String)
deriving DecidableEq, Repr

/-- The zero `Metadata` value (all fields empty), as produced by
`Metadata{ExtraFields: make(map[string]string)}` in `NewPackage`. -/
def Metadata.empty : Metadata :=
  ⟨"", "", "", "", "", "", "", "", false, [], [], [], [], [], [], [], [], [], "", "", []⟩

/-- The `Package` struct: metadata, scripts, payload files and extra
control files. -/
structure Package where
  metadata : Metadata
  scripts : Scripts
  files : List PFile
  extraControlFiles : List (String × String)
deriving DecidableEq, Repr

/-- Go `m[k] = v` on the association-list model of a map: replace in
place if the key is present, append otherwise. -/
def mapInsert (m : List (String × String)) (k v : String) : List (String × String) :=
  match m with
  | [] => [(k, v)]
  | (k₀, v₀) :: rest => if k₀ = k then (k₀, v) :: rest else (k₀, v₀) :: mapInsert rest k v

/-- `splitList` from the source: split a comma-separated string,
trimming each element; empty input gives the empty list. -/
def splitList (s : String) : List String :=
  if s = "" then [] else (goSplit s ',').map goTrim

/-- `Set` from the source: route a control key to its structured field;
`Installed-Size` is silently discarded ("ignored, computed at
generation time"); unknown keys land in `ExtraFields`. -/
def set (p : Package) (key value : String) : Package :=
  if key = "Package" then { p with metadata.package := value }
  else if key = "Version" then { p with metadata.version := value }
  else if key = "Architecture" then { p with metadata.architecture := value }
  else if key = "Maintainer" then { p with metadata.maintainer := value }
  else if key = "Description" then { p with metadata.description := value }
  else if key = "Section" then { p with metadata.sect := value }
  else if key = "Priority" then { p with metadata.priority := value }
  else if key = "Homepage" then { p with metadata.homepage := value }
  else if key = "Essential" then { p with metadata.essential := (value = "yes") }
  else if key = "Depends" then { p with metadata.depends := splitList value }
  else if key = "Pre-Depends" then { p with metadata.preDepends := splitList value }
  else if key = "Recommends" then { p with metadata.recommends := splitList value }
  else if key = "Suggests" then { p with metadata.suggests := splitList value }
  else if key = "Enhances" then { p with metadata.enhances := splitList value }
  else if key = "Conflicts" then { p with metadata.conflicts := splitList value }
  else if key = "Breaks" then { p with metadata.breaks := splitList value }
  else if key = "Replaces" then { p with metadata.replaces := splitList value }
  else if key = "Provides" then { p with metadata.provides := splitList value }
  else if key = "Built-Using" then { p with metadata.builtUsing := value }
  else if key = "Source" then { p with metadata.source := value }
  else if key = "Installed-Size" then p
  else { p with metadata.extraFields := mapInsert p.metadata.extraFields key value }

/-! ## The semantic digest (`Digest`)

The source absorbs length-prefixed records into a SHA-256 state
(`fmt.Fprintf(h, "%d:%s\x00", len(s), s)`) and returns the hex sum.
Here the digest is the absorbed record stream itself; the hash is
modelled as injective, so digest equality in the model is equality of
the absorbed streams. -/

/-- One length-prefixed record: decimal byte length, `:`, the bytes, a
NUL byte. -/
def drec (s : String) : String := toString (goLen s) ++ ":" ++ s ++ "\x00"

/-- Go `fmt.Sprintf("%v", b)` for a boolean. -/
def boolStr (b : Bool) : String := if b then "true" else "false"

/-- Lexicographic character-list comparison: Go's byte-wise string
order (UTF-8 byte order coincides with code-point order). -/
def leChars : List Char → List Char → Bool
  | [], _ => true
  | _ :: _, [] => false
  | a :: as, b :: bs => if a = b then leChars as bs else decide (a < b)

/-- Go string `<=` as a proposition. -/
def strLe (a b : String) : Prop := leChars a.data b.data = true

instance : DecidableRel strLe := fun a b => inferInstanceAs (Decidable (_ = true))

/-- `sort.Strings`: ascending string sort (insertion sort as the
model; `sort.Strings` is only applied to the distinct keys of a map,
where every ascending sort agrees). -/
def sortStrings (l : List String) : List String :=
  l.insertionSort strLe

/-- The keys of a map, sorted. -/
def sortedKeys (m : List (String × String)) : List String :=
  sortStrings (m.map Prod.fst)

/-- Go map indexing `m[k]` (zero value `""` when absent). -/
def lookupD (m : List (String × String)) (k : String) : String := (m.lookup k).getD ""

/-- Absorb a map's entries sorted by key, key then value. -/
def absorbKV (m : List (String × String)) : String :=
  String.join ((sortedKeys m).map (fun k => drec k ++ drec (lookupD m k)))

/-- Absorb a relationship list: its length, then each element in stored
order. -/
def absorbList (l : List String) : String :=
  drec (toString l.length) ++ String.join (l.map drec)

/-- Total payload byte count (the `installedSize` accumulated in
`buildDataArchive` and recomputed at the top of `Digest`). -/
def payloadBytes (files : List PFile) : Nat := (files.map (fun f => goLen f.body)).sum

/-- `(installedBytes + 1023) / 1024`: installed size in KiB, rounded
up. -/
def kbytesOf (n : Nat) : Nat := (n + 1023) / 1024

/-- The `sort.Slice` order on payload files (`DestPath` ascending). -/
def fileLe (a b : PFile) : Prop := strLe a.destPath b.destPath

instance : DecidableRel fileLe := fun a b => inferInstanceAs (Decidable (_ = true))

/-- The `sort.Slice` over payload files (insertion sort as the model —
the source's unstable sort is only observed through
destination-distinct payloads, where every ascending sort agrees). -/
def sortFiles (fs : List PFile) : List PFile :=
  fs.insertionSort fileLe

/-- Absorb the payload files sorted by destination: destination,
decimal mode, `true`/`false` conffile flag, body. -/
def absorbFiles (fs : List PFile) : String :=
  String.join ((sortFiles fs).map (fun f =>
    drec f.destPath ++ drec (toString f.mode) ++ drec (boolStr f.isConf) ++ drec f.body))

/-- The record stream absorbed by `Digest` after the `Set` call:
scalar fields in source order (Package, Version, Architecture,
Maintainer, Description, Section, Priority, Homepage, Essential,
Built-Using, Source), the nine relationship lists, extra fields sorted
by key, the five scripts, extra control files sorted by name, payload
files sorted by destination. -/
def digestStream (p : Package) : String :=
  drec p.metadata.package ++
  drec p.metadata.version ++
  drec p.metadata.architecture ++
  drec p.metadata.maintainer ++
  drec p.metadata.description ++
  drec p.metadata.sect ++
  drec p.metadata.priority ++
  drec p.metadata.homepage ++
  drec (boolStr p.metadata.essential) ++
  drec p.metadata.builtUsing ++
  drec p.metadata.source ++
  absorbList p.metadata.depends ++
  absorbList p.metadata.preDepends ++
  absorbList p.metadata.recommends ++
  absorbList p.metadata.suggests ++
  absorbList p.metadata.enhances ++
  absorbList p.metadata.conflicts ++
  absorbList p.metadata.breaks ++
  absorbList p.metadata.replaces ++
  absorbList p.metadata.provides ++
  absorbKV p.metadata.extraFields ++
  drec p.scripts.preInst ++
  drec p.scripts.postInst ++
  drec p.scripts.preRm ++
  drec p.scripts.postRm ++
  drec p.scripts.config ++
  absorbKV p.extraControlFiles ++
  absorbFiles p.files

/-- `Digest` from the source: first recompute the installed size and
pass it through `Set` (which discards it), then absorb the record
stream. -/
def digest (p : Package) : String :=
  digestStream (set p "Installed-Size" (toString (kbytesOf (payloadBytes p.files))))

/-- `Equal`: data equality via the digest (both receivers non-nil in
the model). -/
def equalPkg (p q : Package) : Bool := digest p == digest q

/-! ## Repository operations (`Get`, `Append`, `AddOverwrite`) -/

/-- The identity triple of a package. -/
def pkgKey (p : Package) : String × String × String :=
  (p.metadata.package, p.metadata.version, p.metadata.architecture)

/-- The comparison `Get` performs against its arguments. -/
def tripleMatches (q : Package) (name ver arch : String) : Bool :=
  q.metadata.package == name && q.metadata.version == ver && q.metadata.architecture == arch

/-- `Get`: linear scan for the first package with the given triple. -/
def get (r : List Package) (name ver arch : String) : Option Package :=
  r.find? (fun q => tripleMatches q name ver arch)

/-- `Append`: returns the updated package list together with the
returned record and error of the Go method (which mutates the
receiver).  No conflicting package: append, return `(nil, nil)`.
Identical existing package: return it with no error.  Different
existing package: return it with an error. -/
def appendPkg (r : List Package) (p : Package) :
    List Package × Option Package × Option String :=
  match get r p.metadata.package p.metadata.version p.metadata.architecture with
  | some existing =>
    if equalPkg existing p then (r, some existing, none)
    else (r, some existing,
      some ("package " ++ p.metadata.package ++ " version " ++ p.metadata.version ++
        " for " ++ p.metadata.architecture ++ " already exists"))
  | none => (r ++ [p], none, none)

/-- `AddOverwrite`: scan for the first package with the same triple.
In the source the loop variable `pkg` shadows the parameter `pkg`, so
the assignment `r.Packages[i] = pkg` writes the loop element (the
existing record) back into its own slot: the found case leaves the
list unchanged.  Only when no triple matches is the new package
appended. -/
def addOverwrite (r : List Package) (p : Package) : List Package :=
  match r with
  | [] => [p]
  | q :: rest =>
    if tripleMatches q p.metadata.package p.metadata.version p.metadata.architecture then
      q :: rest
    else
      q :: addOverwrite rest p

/-! ## Control file emission (`generateControlFile`) -/

/-- `writeField`: one `Key: value` line, skipped entirely when the
value is empty. -/
def optLine (field value : String) : List String :=
  if value = "" then [] else [field ++ ": " ++ value]

/-- `writeRel`: a relationship field, written comma-joined when the
list is nonempty. -/
def relLine (field : String) (items : List String) : List String :=
  if items.isEmpty then [] else optLine field (goJoin items ", ")

/-- One extended-description line as emitted: whitespace-only lines
become `" ."`, lines already starting with a space are kept verbatim,
other lines get one leading space. -/
def descTailLine (line : String) : String :=
  if goTrim line = "" then " ."
  else if goHasPrefix line " " then line
  else " " ++ line

/-- The `Description` block: synopsis via `writeField` (skipped when
the first line is empty), then each further line through
`descTailLine`. -/
def descriptionLines (desc : String) : List String :=
  if desc = "" then []
  else
    match goSplit desc '\n' with
    | [] => []
    | l0 :: rest => optLine "Description" l0 ++ rest.map descTailLine

/-- The per-field line groups written by `generateControlFile`, in
source order (each group is the zero or one `writeField` lines of that
field; the description group carries the whole description block).
Extra fields are emitted in map iteration order (the association
list's order). -/
def controlChunkGroups (m : Metadata) (installedBytes : Nat) : List (List String) :=
  [optLine "Package" m.package,
   optLine "Version" m.version,
   optLine "Architecture" m.architecture,
   optLine "Maintainer" m.maintainer,
   optLine "Installed-Size" (toString (kbytesOf installedBytes)),
   optLine "Section" m.sect,
   optLine "Priority" m.priority,
   optLine "Homepage" m.homepage,
   (if m.essential then optLine "Essential" "yes" else []),
   relLine "Depends" m.depends,
   relLine "Pre-Depends" m.preDepends,
   relLine "Recommends" m.recommends,
   relLine "Suggests" m.suggests,
   relLine "Enhances" m.enhances,
   relLine "Conflicts" m.conflicts,
   relLine "Breaks" m.breaks,
   relLine "Replaces" m.replaces,
   relLine "Provides" m.provides,
   optLine "Built-Using" m.builtUsing,
   optLine "Source" m.source] ++
  m.extraFields.map (fun kv => optLine kv.1 kv.2) ++
  [descriptionLines m.description]

/-- The chunks written by `generateControlFile`, in source order; each
chunk is terminated by `"\n"` when joined. -/
def controlLines (m : Metadata) (installedBytes : Nat) : List String :=
  (controlChunkGroups m installedBytes).flatten

/-- Each chunk followed by a newline, concatenated. -/
def concatLines (ls : List String) : String :=
  ls.foldr (fun l acc => l ++ "\n" ++ acc) ""

/-- `generateControlFile`: the concatenation of the chunks, each
followed by a newline. -/
def generateControlFile (m : Metadata) (installedBytes : Nat) : String :=
  concatLines (controlLines m installedBytes)

/-! ## Control file parsing (`parseControlFile`) -/

/-- `flush` from `parseControlFile`: commit the pending key/value into
the metadata.  The accumulated value is `TrimSpace`d; `Installed-Size`
is ignored; unknown keys go to `ExtraFields`. -/
def flushInto (key val : String) (m : Metadata) : Metadata :=
  if key = "" then m
  else
    let v := goTrim val
    if key = "Package" then { m with package := v }
    else if key = "Version" then { m with version := v }
    else if key = "Architecture" then { m with architecture := v }
    else if key = "Maintainer" then { m with maintainer := v }
    else if key = "Description" then { m with description := v }
    else if key = "Section" then { m with sect := v }
    else if key = "Priority" then { m with priority := v }
    else if key = "Homepage" then { m with homepage := v }
    else if key = "Essential" then { m with essential := (v = "yes") }
    else if key = "Depends" then { m with depends := splitList v }
    else if key = "Pre-Depends" then { m with preDepends := splitList v }
    else if key = "Recommends" then { m with recommends := splitList v }
    else if key = "Suggests" then { m with suggests := splitList v }
    else if key = "Enhances" then { m with enhances := splitList v }
    else if key = "Conflicts" then { m with conflicts := splitList v }
    else if key = "Breaks" then { m with breaks := splitList v }
    else if key = "Replaces" then { m with replaces := splitList v }
    else if key = "Provides" then { m with provides := splitList v }
    else if key = "Built-Using" then { m with builtUsing := v }
    else if key = "Source" then { m with source := v }
    else if key = "Installed-Size" then m
    else { m with extraFields := mapInsert m.extraFields key v }

/-- The parser state: the pending key, the pending value builder, the
metadata written so far. -/
structure PState where
  key : String
  val : String
  md : Metadata
deriving DecidableEq, Repr

/-- One line of `parseControlFile`'s loop: continuation lines (leading
space or tab) extend the pending value with `"\n" ++ line`; lines with
a colon flush the pending field and start a new one (the first value
chunk is `TrimSpace`d); any other line is ignored. -/
def stepLine (st : PState) (line : String) : PState :=
  if goHasPrefix line " " || goHasPrefix line "\t" then
    { st with val := st.val ++ "\n" ++ line }
  else if goContainsChar line ':' then
    match splitFirst ':' line.data with
    | some (k, rest) => { key := ⟨k⟩, val := goTrim ⟨rest⟩, md := flushInto st.key st.val st.md }
    | none => st
  else st

/-- The line loop of `parseControlFile` plus the final flush. -/
def parseLines (ls : List String) (m : Metadata) : Metadata :=
  let st := ls.foldl stepLine ⟨"", "", m⟩
  flushInto st.key st.val st.md

/-- `parseControlFile`: split on newlines, run the loop, flush; the
source has a single `return nil`, so the error component is always
`none`. -/
def parseControlFile (content : String) (m : Metadata) : Metadata × Option String :=
  (parseLines (goSplit content '\n') m, none)

/-- `parseControlFields`: extract the `Package`, `Version` and
`Architecture` fields of a raw control file by line scan. -/
def parseControlFields (control : String) : String × String × String :=
  (goSplit control '\n').foldl
    (fun acc line =>
      if goHasPrefix line "Package: " then
        (goTrim (goTrimPrefix line "Package: "), acc.2.1, acc.2.2)
      else if goHasPrefix line "Version: " then
        (acc.1, goTrim (goTrimPrefix line "Version: "), acc.2.2)
      else if goHasPrefix line "Architecture: " then
        (acc.1, acc.2.1, goTrim (goTrimPrefix line "Architecture: "))
      else acc)
    ("", "", "")

/-! ## Version bumping (`BumpVersion`) and the Debian ordering -/

/-- The numeric value of a nonempty all-digit character list. -/
def digitsVal : List Char → Option Nat
  | [] => none
  | ds =>
    if ds.all Char.isDigit then
      some (ds.foldl (fun acc c => acc * 10 + (c.toNat - 48)) 0)
    else none

/-- Go `strconv.Atoi`: optional sign, at least one digit, result within
int64 range (out-of-range input is an error). -/
def goAtoi (s : String) : Option Int :=
  match s.data with
  | '+' :: ds => (digitsVal ds).bind (fun n =>
      if n ≤ 9223372036854775807 then some (Int.ofNat n) else none)
  | '-' :: ds => (digitsVal ds).bind (fun n =>
      if n ≤ 9223372036854775808 then some (-(Int.ofNat n)) else none)
  | ds => (digitsVal ds).bind (fun n =>
      if n ≤ 9223372036854775807 then some (Int.ofNat n) else none)

/-- The right-to-left scan of `BumpVersion`, on the reversed revision:
the first digit `0`–`8` is incremented, `9` becomes `a`, `a`–`y` is
incremented, after a `z` a `0` is inserted; other characters are
skipped.  `none` when no such character exists. -/
def bumpRev : List Char → Option (List Char)
  | [] => none
  | c :: cs =>
    if '0' ≤ c ∧ c < '9' then some (Char.ofNat (c.toNat + 1) :: cs)
    else if c = '9' then some ('a' :: cs)
    else if 'a' ≤ c ∧ c < 'z' then some (Char.ofNat (c.toNat + 1) :: cs)
    else if c = 'z' then some ('0' :: c :: cs)
    else (bumpRev cs).map (fun r => c :: r)

/-- `BumpVersion` from the source.  (The Go `i+1` on a revision equal
to `MaxInt64` would wrap; that overflow is not modelled.) -/
def bumpVersion (v : String) : String :=
  match lastIndexCh v.data '-' with
  | none => v ++ "-1"
  | some idx =>
    let pre : String := ⟨v.data.take (idx + 1)⟩
    let rev : String := ⟨v.data.drop (idx + 1)⟩
    if rev = "" then pre ++ "1"
    else
      match goAtoi rev with
      | some i => pre ++ toString (i + 1)
      | none =>
        match bumpRev rev.data.reverse with
        | some r => pre ++ String.mk r.reverse
        | none => v ++ "1"

/-- Modelled from the spec: the character weight of dpkg's `order()`
(the Debian version ordering of §4.4/§8 is not implemented in `src/`,
which only carries a simplified revision comparator): digits weigh 0,
letters their code point, `~` sorts before everything, all other
characters after the letters. -/
def charOrder (c : Char) : Int :=
  if c.isDigit then 0
  else if c.isAlpha then c.toNat
  else if c = '~' then -1
  else c.toNat + 256

/-- The weight of the head of a character list (0 at end of string,
matching dpkg's treatment of the NUL terminator). -/
def hdOrder : List Char → Int
  | [] => 0
  | c :: _ => charOrder c

/-- Whether a list starts with a non-digit character. -/
def nonDigitHead : List Char → Bool
  | [] => false
  | c :: _ => !c.isDigit

/-- The first character difference of two equal-length digit runs. -/
def lexDiff : List Char → List Char → Int
  | a :: as, b :: bs => if a ≠ b then (a.toNat : Int) - (b.toNat : Int) else lexDiff as bs
  | _, _ => 0

/-- Modelled from the spec: dpkg's `verrevcmp` on one version
component.  Alternating phases compare maximal non-digit runs by
character weight and maximal digit runs numerically (leading zeros
skipped, longer run wins, then first differing digit).  Structured
with explicit fuel to stay a structural recursion; `verrevcmp`
instantiates the fuel with a sufficient bound, and every use below is
on concrete inputs where the bound is evidently sufficient. -/
def verrevcmpF : Nat → List Char → List Char → Int
  | 0, _, _ => 0
  | fuel + 1, a, b =>
    if a.isEmpty ∧ b.isEmpty then 0
    else if nonDigitHead a ∨ nonDigitHead b then
      let ac := hdOrder a
      let bc := hdOrder b
      if ac ≠ bc then ac - bc
      else verrevcmpF fuel a.tail b.tail
    else
      let a1 := a.dropWhile (· = '0')
      let b1 := b.dropWhile (· = '0')
      let da := a1.takeWhile Char.isDigit
      let db := b1.takeWhile Char.isDigit
      if da.length > db.length then 1
      else if da.length < db.length then -1
      else
        let d := lexDiff da db
        if d ≠ 0 then d
        else verrevcmpF fuel (a1.drop da.length) (b1.drop db.length)

/-- dpkg's `verrevcmp` with sufficient fuel. -/
def verrevcmp (a b : List Char) : Int := verrevcmpF (a.length + b.length + 1) a b

/-- Modelled from the spec: split `[epoch:]rest` (no colon means epoch
0; a non-numeric epoch also counts 0 here). -/
def splitEpoch (v : String) : Nat × String :=
  match splitFirst ':' v.data with
  | some (e, rest) => ((digitsVal e).getD 0, ⟨rest⟩)
  | none => (0, v)

/-- Modelled from the spec: split `upstream[-revision]` at the last
hyphen; a missing revision compares as `"0"`. -/
def splitRevision (s : String) : String × String :=
  match lastIndexCh s.data '-' with
  | none => (s, "0")
  | some i => (⟨s.data.take i⟩, ⟨s.data.drop (i + 1)⟩)

/-- Modelled from the spec: the full Debian (dpkg) version comparison —
epoch numerically, then upstream and revision via `verrevcmp`.
Negative: first version is smaller. -/
def debCompare (v1 v2 : String) : Int :=
  let (e1, r1) := splitEpoch v1
  let (e2, r2) := splitEpoch v2
  if e1 ≠ e2 then (e1 : Int) - (e2 : Int)
  else
    let (u1, rev1) := splitRevision r1
    let (u2, rev2) := splitRevision r2
    let c := verrevcmp u1.data u2.data
    if c ≠ 0 then c else verrevcmp rev1.data rev2.data

/-! ## Hierarchical (standard) repository layout -/

/-- The `repoPackage` triple extracted from a freshly generated
package: `parseDeb` reads the control file back out of the written
bytes and scans it with `parseControlFields`. -/
def rpTriple (p : Package) : String × String × String :=
  parseControlFields (generateControlFile p.metadata (payloadBytes p.files))

/-- The standard filename `{name}_{version}_{architecture}.deb`. -/
def standardFilename (name ver arch : String) : String :=
  name ++ "_" ++ ver ++ "_" ++ arch ++ ".deb"

/-- The pool path computed by `StandardRepository.WriteTo`:
`pool/<component>/<pkgName>/<standard-filename>` with `"unknown"`
substituted for an empty package name. -/
def poolPath (comp rpPackage rpVersion rpArch : String) : String :=
  let pkgName := if rpPackage = "" then "unknown" else rpPackage
  "pool/" ++ comp ++ "/" ++ pkgName ++ "/" ++ standardFilename rpPackage rpVersion rpArch

/-- The per-part index directory `<component>/binary-<architecture>`. -/
def relDir (comp arch : String) : String := comp ++ "/binary-" ++ arch

/-- The tar path of a part's `Packages` index:
`dists/<codename>/<component>/binary-<arch>/Packages`. -/
def packagesPath (codename comp arch : String) : String :=
  "dists/" ++ codename ++ "/" ++ relDir comp arch ++ "/Packages"

/-- A part of a `StandardRepository`: one component/architecture pair
with its packages. -/
structure RepoPart where
  component : String
  architecture : String
  packages : List Package
deriving Repr

/-- The tar member names written by `StandardRepository.WriteTo` for
one part, given the pool paths already written: each package's pool
path (skipped when already present), then the part's `Packages` and
`Packages.gz` indices. -/
def partEntryNames (codename : String) (part : RepoPart) (pool : List String) :
    List String × List String :=
  let step := part.packages.foldl
    (fun (acc : List String × List String) p =>
      let (names, seen) := acc
      let (n, v, a) := rpTriple p
      let path := poolPath part.component n v a
      if path ∈ seen then (names, seen)
      else (names ++ [path], seen ++ [path]))
    (([] : List String), pool)
  (step.1 ++ [packagesPath codename part.component part.architecture,
              packagesPath codename part.component part.architecture ++ ".gz"],
   step.2)

/-- All tar member names written by `StandardRepository.WriteTo` for an
unsigned repository: the parts in order, then the top-level
`dists/<codename>/Release`. -/
def standardRepoNames (codename : String) (parts : List RepoPart) : List String :=
  let folded := parts.foldl
    (fun (acc : List String × List String) part =>
      let (names, seen) := partEntryNames codename part acc.2
      (acc.1 ++ names, seen))
    (([] : List String), ([] : List String))
  folded.1 ++ ["dists/" ++ codename ++ "/Release"]

/-! ## Serialization (`WriteTo`) and parsing (`NewPackage`)

The outer `ar` container and the gzip-compressed tar members are
byte-level framing produced by external libraries; they are modelled
as structured member/entry lists (the identity on what the repository
code itself writes and reads).  Entry modification times, member
padding and compression are framing only and carry no claim-relevant
information.  Only regular-file tar entries are modelled: the source
skips all other entry types on read and never writes them. -/

/-- A regular-file tar entry. -/
structure TarEntry where
  name : String
  mode : Int
  body : String
deriving DecidableEq, Repr

/-- An `ar` member body: raw bytes or a (compressed) tar archive. -/
inductive ArBody where
  | raw (content : String)
  | archive (entries : List TarEntry)
deriving DecidableEq, Repr

/-- A `.deb` file: its ordered `ar` members. -/
structure DebFile where
  members : List (String × ArBody)
deriving DecidableEq, Repr

/-- `buildDataArchive`'s tar entries: each payload file at
`./<destination-without-leading-slash>`. -/
def dataEntries (files : List PFile) : List TarEntry :=
  files.map (fun f =>
    let rel := goTrimPrefix f.destPath "/"
    let rel := if goHasPrefix rel "./" then rel else "./" ++ rel
    { name := rel, mode := f.mode, body := f.body })

/-- The md5 map accumulated by `buildDataArchive` (`md5Hex` stands for
the external MD5 library). -/
def md5Map (md5Hex : String → String) (files : List PFile) : List (String × String) :=
  files.foldl (fun m f => mapInsert m f.destPath (md5Hex f.body)) []

/-- `generateMd5sums`: one `<hex>  <path-without-leading-slash>` line
per payload destination, sorted. -/
def generateMd5sums (md5Hex : String → String) (files : List PFile) : String :=
  let m := md5Map md5Hex files
  String.join ((sortedKeys m).map (fun path =>
    lookupD m path ++ "  " ++ goTrimPrefix path "/" ++ "\n"))

/-- The optional `conffiles` control member: the destinations of the
flagged payload files, newline-joined with a trailing newline. -/
def conffilesEntry (files : List PFile) : List TarEntry :=
  let cf := (files.filter (fun f => f.isConf)).map (fun f => f.destPath)
  if cf.isEmpty then [] else [⟨"./conffiles", 0o644, goJoin cf "\n" ++ "\n"⟩]

/-- The nonempty maintainer scripts at mode 0755.  The source iterates
a five-entry map in unspecified order; a fixed lifecycle order is used
here (the reader dispatches on entry names, so the order is
immaterial). -/
def scriptEntries (s : Scripts) : List TarEntry :=
  (if s.preInst = "" then [] else [⟨"./preinst", 0o755, s.preInst⟩]) ++
  (if s.postInst = "" then [] else [⟨"./postinst", 0o755, s.postInst⟩]) ++
  (if s.preRm = "" then [] else [⟨"./prerm", 0o755, s.preRm⟩]) ++
  (if s.postRm = "" then [] else [⟨"./postrm", 0o755, s.postRm⟩]) ++
  (if s.config = "" then [] else [⟨"./config", 0o755, s.config⟩])

/-- The reserved control member names skipped when writing extra
control files. -/
def reservedNames : List String :=
  ["control", "md5sums", "conffiles", "preinst", "postinst", "prerm", "postrm", "config"]

/-- The extra control files, sorted by name, reserved names and empty
contents skipped. -/
def extraControlEntries (extras : List (String × String)) : List TarEntry :=
  (sortedKeys extras).filterMap (fun n =>
    if n ∈ reservedNames then none
    else if lookupD extras n = "" then none
    else some ⟨"./" ++ n, 0o644, lookupD extras n⟩)

/-- `buildControlArchive`: control file (with the recomputed installed
size), md5sums, optional conffiles, nonempty scripts, extra control
files. -/
def controlEntries (md5Hex : String → String) (p : Package) : List TarEntry :=
  ⟨"./control", 0o644, generateControlFile p.metadata (payloadBytes p.files)⟩ ::
  ⟨"./md5sums", 0o644, generateMd5sums md5Hex p.files⟩ ::
  (conffilesEntry p.files ++ scriptEntries p.scripts ++ extraControlEntries p.extraControlFiles)

/-- `WriteTo`: the three `ar` members in canonical order. -/
def writeToDeb (md5Hex : String → String) (p : Package) : DebFile :=
  ⟨[("debian-binary", .raw "2.0\n"),
    ("control.tar.gz", .archive (controlEntries md5Hex p)),
    ("data.tar.gz", .archive (dataEntries p.files))]⟩

/-- One control-archive entry of `NewPackage`'s reader loop,
dispatching on the base name; the second component carries the
`conffiles` list. -/
def applyControlEntry (st : Package × List String) (e : TarEntry) : Package × List String :=
  let (pkg, conf) := st
  let name := baseName e.name
  if name = "control" then ({ pkg with metadata := (parseControlFile e.body pkg.metadata).1 }, conf)
  else if name = "conffiles" then (pkg, goSplit (goTrim e.body) '\n')
  else if name = "preinst" then ({ pkg with scripts.preInst := e.body }, conf)
  else if name = "postinst" then ({ pkg with scripts.postInst := e.body }, conf)
  else if name = "prerm" then ({ pkg with scripts.preRm := e.body }, conf)
  else if name = "postrm" then ({ pkg with scripts.postRm := e.body }, conf)
  else if name = "config" then ({ pkg with scripts.config := e.body }, conf)
  else if name = "md5sums" then (pkg, conf)
  else if goHasPrefix name "." then (pkg, conf)
  else ({ pkg with extraControlFiles := mapInsert pkg.extraControlFiles name e.body }, conf)

/-- One data-archive entry of `NewPackage`'s reader loop: the
destination is the entry name with `./` exchanged for a leading slash
and double slashes squashed. -/
def applyDataEntry (pkg : Package) (e : TarEntry) : Package :=
  let dest : String := ⟨squashSlashes ("/" ++ goTrimPrefix e.name "./").data⟩
  { pkg with files := pkg.files ++ [⟨dest, e.mode, e.body, false⟩] }

/-- `NewPackage`: walk the `ar` members, read the control and data
archives, then flag the conffiles.  A `control.tar*`/`data.tar*`
member whose body is not an archive is the model of a gzip/tar open
failure. -/
def newPackage (d : DebFile) : Except String Package :=
  let init : Package × List String := (⟨Metadata.empty, Scripts.empty, [], []⟩, [])
  let walked := d.members.foldlM
    (fun (st : Package × List String) (mem : String × ArBody) =>
      if goHasPrefix mem.1 "control.tar" then
        match mem.2 with
        | .archive es => Except.ok (es.foldl applyControlEntry st)
        | .raw _ => Except.error ("opening " ++ mem.1)
      else if goHasPrefix mem.1 "data.tar" then
        match mem.2 with
        | .archive es => Except.ok (es.foldl applyDataEntry st.1, st.2)
        | .raw _ => Except.error ("opening " ++ mem.1)
      else Except.ok st)
    init
  match walked with
  | .error e => .error e
  | .ok (pkg, conffiles) =>
    let confSet := conffiles.filter (fun cf => cf ≠ "")
    .ok { pkg with
      files := pkg.files.map (fun f =>
        if f.destPath ∈ confSet then { f with isConf := true } else f) }

/-! ## Concrete packages used in the claim theorems -/

/-- The metadata of the spec's scenario-1 package. -/
def helloMeta : Metadata := { Metadata.empty with
  package := "hello"
  version := "1.0-1"
  architecture := "amd64"
  maintainer := "Dev <d@e>"
  description := "Greets" }

/-- The spec's scenario-1 package (one 18-byte executable payload
file). -/
def helloPkg : Package :=
  ⟨helloMeta, Scripts.empty, [⟨"/usr/bin/hello", 0o755, "#!/bin/sh\necho hi\n", false⟩], []⟩

/-- A stored package with triple `(app, 1.0, amd64)`. -/
def appOld : Package :=
  ⟨{ Metadata.empty with
      package := "app"
      version := "1.0"
      architecture := "amd64"
      description := "old content" }, Scripts.empty, [], []⟩

/-- A replacement package with the same triple but different content. -/
def appNew : Package :=
  ⟨{ Metadata.empty with
      package := "app"
      version := "1.0"
      architecture := "amd64"
      description := "new content" }, Scripts.empty, [], []⟩

/-- `Set` discards `Installed-Size` (shared helper). -/
theorem set_installedSize (p : Package) (v : String) : set p "Installed-Size" v = p := by
  simp [set]

/-! ## C2 -/

/-- Claim C2: `AddOverwrite(R, p)` is claimed to replace in place, so
that the matching slot afterwards holds the new record `p`.  Evaluated
at a repository holding a conflicting record, the code leaves the old
record in place instead (the loop variable `pkg` shadows the parameter
`pkg`, so `r.Packages[i] = pkg` writes the existing element back into
its own slot); only the append-when-absent half behaves as claimed. -/
theorem addOverwrite_keeps_existing_record :
    addOverwrite [appOld] appNew = [appOld] ∧
    appOld ≠ appNew ∧
    ([appOld].set 0 appNew = [appNew]) ∧
    addOverwrite [] appNew = [appNew] := by
  refine ⟨by decide, by decide, by decide, by decide⟩

/-! ## C3 -/

/-- The digest construction exactly as claim C3 states it: the
recomputed installed size is absorbed as a field in the §4.3 canonical
emission order (Package, Version, Architecture, Maintainer,
Installed-Size, Section, Priority, Homepage, Essential, the nine
relationship lists, Built-Using, Source, user-defined fields sorted by
key, Description last), followed by scripts, auxiliary control files,
and payload files sorted by destination. -/
def digestSpecC3 (p : Package) : String :=
  drec p.metadata.package ++
  drec p.metadata.version ++
  drec p.metadata.architecture ++
  drec p.metadata.maintainer ++
  drec (toString (kbytesOf (payloadBytes p.files))) ++
  drec p.metadata.sect ++
  drec p.metadata.priority ++
  drec p.metadata.homepage ++
  drec (boolStr p.metadata.essential) ++
  absorbList p.metadata.depends ++
  absorbList p.metadata.preDepends ++
  absorbList p.metadata.recommends ++
  absorbList p.metadata.suggests ++
  absorbList p.metadata.enhances ++
  absorbList p.metadata.conflicts ++
  absorbList p.metadata.breaks ++
  absorbList p.metadata.replaces ++
  absorbList p.metadata.provides ++
  drec p.metadata.builtUsing ++
  drec p.metadata.source ++
  absorbKV p.metadata.extraFields ++
  drec p.metadata.description ++
  drec p.scripts.preInst ++
  drec p.scripts.postInst ++
  drec p.scripts.preRm ++
  drec p.scripts.postRm ++
  drec p.scripts.config ++
  absorbKV p.extraControlFiles ++
  absorbFiles p.files

/-- A package with only a description, distinguishing the absorption
orders. -/
def descOnlyPkg : Package :=
  ⟨{ Metadata.empty with description := "d" }, Scripts.empty, [], []⟩

/-- Claim C3 (counterexample): the digest does not follow the claimed
construction — at a package with a description, the code absorbs
Description fifth (right after Maintainer) while the claim puts the
recomputed Installed-Size there and Description last; the code also
never absorbs the installed size at all, because `Set` discards it. -/
theorem digest_ne_spec_order : digest descOnlyPkg ≠ digestSpecC3 descOnlyPkg := by
  decide

/-- The digest construction as the code actually performs it: the
installed size is recomputed and passed to the setter, which discards
it, so it is not absorbed; the scalar fields are absorbed in the order
Package, Version, Architecture, Maintainer, Description, Section,
Priority, Homepage, Essential, Built-Using, Source; then the nine
relationship lists (each length-prefixed), user-defined fields sorted
by key, the five scripts in lifecycle order, auxiliary control files
sorted by name, and payload files sorted by destination. -/
def digestAmendedSpec (p : Package) : String :=
  drec p.metadata.package ++
  drec p.metadata.version ++
  drec p.metadata.architecture ++
  drec p.metadata.maintainer ++
  drec p.metadata.description ++
  drec p.metadata.sect ++
  drec p.metadata.priority ++
  drec p.metadata.homepage ++
  drec (boolStr p.metadata.essential) ++
  drec p.metadata.builtUsing ++
  drec p.metadata.source ++
  absorbList p.metadata.depends ++
  absorbList p.metadata.preDepends ++
  absorbList p.metadata.recommends ++
  absorbList p.metadata.suggests ++
  absorbList p.metadata.enhances ++
  absorbList p.metadata.conflicts ++
  absorbList p.metadata.breaks ++
  absorbList p.metadata.replaces ++
  absorbList p.metadata.provides ++
  absorbKV p.metadata.extraFields ++
  drec p.scripts.preInst ++
  drec p.scripts.postInst ++
  drec p.scripts.preRm ++
  drec p.scripts.postRm ++
  drec p.scripts.config ++
  absorbKV p.extraControlFiles ++
  absorbFiles p.files

/-- Claim C3 (amended): for every package, `Digest` equals the
construction with the actual absorption order and without the
installed size (which the setter discards). -/
theorem digest_eq_actual_order (p : Package) : digest p = digestAmendedSpec p := by
  rw [digest, set_installedSize]
  rfl

/-! ## C5 -/

/-- Claim C5: `BumpVersion(v)` is claimed strictly greater than `v`
under the Debian (dpkg) ordering for every `v`, including revisions
ending in `z` or containing non-alphanumeric characters.  Evaluated at
`"1.0-1z"` the code inserts a `0` after the `z`, and `1z0` compares
*equal* to `1z` under dpkg rules (same letter run, both numeric tails
worth 0); at `"1.0-z!"` the result even compares *smaller* (the `0`
now precedes `!`, and digits weigh less than punctuation).  This
contradicts the function's own documentation ("ensures the new version
is considered newer by Debian sorting rules"). -/
theorem bumpVersion_not_strictly_greater :
    bumpVersion "1.0-1z" = "1.0-1z0" ∧
    debCompare "1.0-1z" "1.0-1z0" = 0 ∧
    bumpVersion "1.0-z!" = "1.0-z0!" ∧
    debCompare "1.0-z!" "1.0-z0!" > 0 := by
  refine ⟨by decide, by decide, by decide, by decide⟩

/-! ## C6 -/

/-- Claim C6: package files of a hierarchical repository are claimed to
be placed at `pool/<component>/<first-letter>/<name>/<file>.deb`.
Evaluated at a one-package part, the code writes
`pool/main/hello/hello_1.0-1_amd64.deb` — without the first-letter
directory claimed (and shown in the source's own comment
`pool/main/p/pkg/file.deb`) — while the index paths match the claimed
`dists/<codename>/<component>/binary-<arch>/` layout. -/
theorem standard_pool_path_has_no_letter_dir :
    standardRepoNames "stable" [⟨"main", "amd64", [helloPkg]⟩] =
      ["pool/main/hello/hello_1.0-1_amd64.deb",
       "dists/stable/main/binary-amd64/Packages",
       "dists/stable/main/binary-amd64/Packages.gz",
       "dists/stable/Release"] ∧
    poolPath "main" "hello" "1.0-1" "amd64" ≠
      "pool/main/h/hello/hello_1.0-1_amd64.deb" := by
  refine ⟨by decide, by decide⟩

/-! ## C8 -/

/-- Extra fields inserted in the order `X-A`, `X-B` (one possible Go
map iteration order). -/
def extrasAB : Metadata := { Metadata.empty with
  package := "p"
  extraFields := [("X-A", "1"), ("X-B", "2")] }

/-- The same map iterated in the order `X-B`, `X-A`. -/
def extrasBA : Metadata := { Metadata.empty with
  package := "p"
  extraFields := [("X-B", "2"), ("X-A", "1")] }

/-- Claim C8: user-defined fields are claimed to be emitted sorted by
key, making the control bytes independent of insertion order.
Evaluated at a map holding `X-A` and `X-B`: the two iteration orders
of the *same* map (equal lookups, equal sorted key set) yield
different control files, and the `X-B`-first iteration emits the keys
unsorted — the code writes the extra fields in raw map iteration
order, which in Go is not even deterministic. -/
theorem extra_fields_emitted_unsorted :
    lookupD extrasAB.extraFields "X-A" = lookupD extrasBA.extraFields "X-A" ∧
    lookupD extrasAB.extraFields "X-B" = lookupD extrasBA.extraFields "X-B" ∧
    sortedKeys extrasAB.extraFields = sortedKeys extrasBA.extraFields ∧
    generateControlFile extrasBA 0 =
      "Package: p\nInstalled-Size: 0\nX-B: 2\nX-A: 1\n" ∧
    generateControlFile extrasAB 0 ≠ generateControlFile extrasBA 0 := by
  refine ⟨by decide, by decide, by decide, by decide, by decide⟩

/-! ## C1: the `Append` trichotomy -/

/-- `Get`'s triple comparison matches key equality. -/
theorem tripleMatches_eq_key (q p : Package) :
    tripleMatches q p.metadata.package p.metadata.version p.metadata.architecture = true ↔
      pkgKey q = pkgKey p := by
  simp [tripleMatches, pkgKey, Prod.ext_iff, and_assoc]

/-- A repository holds at most one package per `(name, version,
architecture)` triple. -/
def uniqueTriples (r : List Package) : Prop :=
  r.Pairwise (fun a b => pkgKey a ≠ pkgKey b)

/-- In a triple-unique repository, two members with the same key are
the same record. -/
theorem uniqueTriples_mem_eq {r : List Package} {q p : Package} (hu : uniqueTriples r)
    (hq : q ∈ r) (hp : p ∈ r) (hk : pkgKey q = pkgKey p) : q = p := by
  by_contra hne
  have hsym : Symmetric (fun a b : Package => pkgKey a ≠ pkgKey b) :=
    fun a b h e => h e.symm
  exact List.Pairwise.forall hsym hu hq hp hne hk

/-- Claim C1: on a repository satisfying the uniqueness invariant,
`Append` is the claimed trichotomy: no package with `p`'s triple —
append, return no record and no error; a package with the same triple
and the same digest — return that record unchanged with no error (in
particular, re-adding any `p` already in `R` returns `p` itself and
keeps the length); same triple but different digest — return the
existing record and an error, leaving `R` unchanged. -/
theorem append_trichotomy (r : List Package) (p : Package) (hu : uniqueTriples r) :
    ((∀ q ∈ r, pkgKey q ≠ pkgKey p) → appendPkg r p = (r ++ [p], none, none)) ∧
    (∀ q ∈ r, pkgKey q = pkgKey p → digest q = digest p →
      appendPkg r p = (r, some q, none)) ∧
    (∀ q ∈ r, pkgKey q = pkgKey p → digest q ≠ digest p →
      ∃ e, appendPkg r p = (r, some q, some e)) ∧
    (p ∈ r → appendPkg r p = (r, some p, none) ∧ (appendPkg r p).1.length = r.length) := by
  have hfound : ∀ q ∈ r, pkgKey q = pkgKey p →
      get r p.metadata.package p.metadata.version p.metadata.architecture = some q := by
    intro q hq hk
    cases heq : get r p.metadata.package p.metadata.version p.metadata.architecture with
    | none =>
      rw [get] at heq
      exact absurd ((tripleMatches_eq_key q p).mpr hk)
        (List.find?_eq_none.mp heq q hq)
    | some q' =>
      rw [get] at heq
      have hq'r : q' ∈ r := List.mem_of_find?_eq_some heq
      have hm := List.find?_some heq
      have hq'p : pkgKey q' = pkgKey p := (tripleMatches_eq_key q' p).mp hm
      rw [uniqueTriples_mem_eq hu hq'r hq (hq'p.trans hk.symm)]
  have h2 : ∀ q ∈ r, pkgKey q = pkgKey p → digest q = digest p →
      appendPkg r p = (r, some q, none) := by
    intro q hq hk hd
    have he : equalPkg q p = true := by simp [equalPkg, hd]
    simp [appendPkg, hfound q hq hk, he]
  refine ⟨?_, h2, ?_, ?_⟩
  · intro h
    have : get r p.metadata.package p.metadata.version p.metadata.architecture = none := by
      rw [get]
      rw [List.find?_eq_none]
      intro q hq hm
      exact h q hq ((tripleMatches_eq_key q p).mp hm)
    simp [appendPkg, this]
  · intro q hq hk hd
    have he : equalPkg q p = false := by
      simp [equalPkg]
      exact hd
    have hc : appendPkg r p = (r, some q,
        some ("package " ++ p.metadata.package ++ " version " ++ p.metadata.version ++
          " for " ++ p.metadata.architecture ++ " already exists")) := by
      simp [appendPkg, hfound q hq hk, he]
    exact ⟨_, hc⟩
  · intro hp
    have := h2 p hp rfl rfl
    exact ⟨this, by rw [this]⟩

/-- Witness for C1 at the concrete scenario-2 repository: re-adding
`helloPkg` to `[helloPkg]` returns the identical record with no error
and the same length. -/
theorem append_trichotomy_witness :
    uniqueTriples [helloPkg] ∧ helloPkg ∈ [helloPkg] ∧
    appendPkg [helloPkg] helloPkg = ([helloPkg], some helloPkg, none) := by
  refine ⟨List.pairwise_singleton _ _, by decide, ?_⟩
  exact ((append_trichotomy [helloPkg] helloPkg
    (List.pairwise_singleton _ _)).2.2.2 (by decide)).1

/-! ## C10: reachability preserves triple uniqueness -/

/-- A repository-mutating operation: `Append` or `AddOverwrite`. -/
inductive RepoOp where
  | insert (p : Package)
  | overwrite (p : Package)

/-- Apply one operation to the package list. -/
def applyOp (r : List Package) : RepoOp → List Package
  | .insert p => (appendPkg r p).1
  | .overwrite p => addOverwrite r p

/-- The repository reached from empty by a sequence of operations. -/
def runOps (ops : List RepoOp) : List Package := ops.foldl applyOp []

/-- Everything in `addOverwrite r p` is from `r` or is `p`. -/
theorem mem_addOverwrite (r : List Package) (p : Package) :
    ∀ x ∈ addOverwrite r p, x ∈ r ∨ x = p := by
  induction r with
  | nil =>
    intro x hx
    rw [addOverwrite, List.mem_singleton] at hx
    exact .inr hx
  | cons q rest ih =>
    intro x hx
    rw [addOverwrite] at hx
    split at hx
    · exact .inl hx
    · rcases List.mem_cons.mp hx with h | h
      · exact .inl (h ▸ List.mem_cons_self q rest)
      · rcases ih x h with h | h
        · exact .inl (List.mem_cons_of_mem q h)
        · exact .inr h

/-- `Append` preserves triple uniqueness. -/
theorem uniqueTriples_append {r : List Package} (p : Package) (hu : uniqueTriples r) :
    uniqueTriples (appendPkg r p).1 := by
  cases heq : get r p.metadata.package p.metadata.version p.metadata.architecture with
  | some q =>
    have h1 : (appendPkg r p).1 = r := by
      simp only [appendPkg, heq]
      cases hq : equalPkg q p <;> simp
    rw [h1]
    exact hu
  | none =>
    have habs : ∀ q ∈ r, pkgKey q ≠ pkgKey p := by
      intro q hq hk
      rw [get] at heq
      exact List.find?_eq_none.mp heq q hq ((tripleMatches_eq_key q p).mpr hk)
    simp only [appendPkg, heq]
    rw [uniqueTriples, List.pairwise_append]
    exact ⟨hu, List.pairwise_singleton _ _, by
      intro a ha b hb
      rw [List.mem_singleton] at hb
      subst hb
      exact habs a ha⟩

/-- `AddOverwrite` preserves triple uniqueness. -/
theorem uniqueTriples_addOverwrite {r : List Package} (p : Package) (hu : uniqueTriples r) :
    uniqueTriples (addOverwrite r p) := by
  induction r with
  | nil => simp [addOverwrite, uniqueTriples]
  | cons q rest ih =>
    rw [addOverwrite]
    rw [uniqueTriples, List.pairwise_cons] at hu
    by_cases hm : tripleMatches q p.metadata.package p.metadata.version p.metadata.architecture
    · simp only [hm, if_true]
      exact List.Pairwise.cons hu.1 hu.2
    · simp only [hm, if_false]
      refine List.Pairwise.cons ?_ (ih hu.2)
      intro x hx
      rcases mem_addOverwrite rest p x hx with h | h
      · exact hu.1 x h
      · intro hk
        apply hm
        apply (tripleMatches_eq_key q p).mpr
        rw [← h]
        exact hk

/-- Claim C10: every repository reachable from the empty repository by
`Append` and `AddOverwrite` operations holds at most one package per
`(name, version, architecture)` triple. -/
theorem reachable_repo_unique_triples (ops : List RepoOp) : uniqueTriples (runOps ops) := by
  suffices h : ∀ (ops : List RepoOp) (r : List Package), uniqueTriples r →
      uniqueTriples (ops.foldl applyOp r) by
    exact h ops [] (List.Pairwise.nil)
  intro ops
  induction ops with
  | nil => exact fun r h => h
  | cons op rest ih =>
    intro r hu
    refine ih (applyOp r op) ?_
    cases op with
    | insert p => exact uniqueTriples_append p hu
    | overwrite p => exact uniqueTriples_addOverwrite p hu

/-! ## C9: totality of the control parser -/

/-- Claim C9: `parseControlFile` is total and never signals a syntax
error — its error result is `nil` on every input — and a line that
neither starts with a space or tab nor contains a colon is silently
ignored: deleting such a line anywhere in the input changes nothing. -/
theorem parse_control_total_and_ignores :
    (∀ (content : String) (m : Metadata), (parseControlFile content m).2 = none) ∧
    (∀ (ls₁ ls₂ : List String) (line : String) (m : Metadata),
      goHasPrefix line " " = false → goHasPrefix line "\t" = false →
      goContainsChar line ':' = false →
      parseLines (ls₁ ++ line :: ls₂) m = parseLines (ls₁ ++ ls₂) m) := by
  constructor
  · intro content m
    rfl
  · intro ls₁ ls₂ line m h1 h2 h3
    have hstep : ∀ st : PState, stepLine st line = st := by
      intro st
      simp [stepLine, h1, h2, h3]
    unfold parseLines
    rw [List.foldl_append, List.foldl_append, List.foldl_cons, hstep]

/-- Witness for C9 at a concrete malformed line: deleting `"garbage"`
from a two-field stanza leaves the parse unchanged. -/
theorem parse_control_total_and_ignores_witness :
    (parseControlFile "x" Metadata.empty).2 = none ∧
    goHasPrefix "garbage" " " = false ∧ goHasPrefix "garbage" "\t" = false ∧
    goContainsChar "garbage" ':' = false ∧
    parseLines (["Package: a"] ++ "garbage" :: ["Version: 1"]) Metadata.empty =
      parseLines (["Package: a"] ++ ["Version: 1"]) Metadata.empty := by
  refine ⟨parse_control_total_and_ignores.1 "x" Metadata.empty, by decide, by decide, by decide, ?_⟩
  exact parse_control_total_and_ignores.2 ["Package: a"] ["Version: 1"] "garbage"
    Metadata.empty (by decide) (by decide) (by decide)

/-! ## String-splitting lemma kit -/

/-- `String.mk` undoes `String.data`. -/
theorem strMkData (s : String) : String.mk s.data = s := by
  cases s
  rfl

/-- A list without the separator splits to itself. -/
theorem splitCh_of_not_contains (sep : Char) (l : List Char) (h : l.contains sep = false) :
    splitCh sep l = [l] := by
  induction l with
  | nil => rfl
  | cons c cs ih =>
    rw [List.contains_cons, Bool.or_eq_false_iff] at h
    have hc : ¬(c = sep) := by
      intro e
      subst e
      simp at h
    rw [splitCh, if_neg hc, ih h.2]

/-- Splitting at the first separator after a separator-free head. -/
theorem splitCh_append_sep (sep : Char) (xs ys : List Char) (h : xs.contains sep = false) :
    splitCh sep (xs ++ sep :: ys) = xs :: splitCh sep ys := by
  induction xs with
  | nil => simp [splitCh]
  | cons c cs ih =>
    rw [List.contains_cons, Bool.or_eq_false_iff] at h
    have hc : ¬(c = sep) := by
      intro e
      subst e
      simp at h
    rw [List.cons_append, splitCh, if_neg hc, ih h.2]

/-- The first group of `strings.Split` after a newline-free chunk. -/
theorem goSplit_append_line (s rest : String) (h : s.data.contains '\n' = false) :
    goSplit (s ++ "\n" ++ rest) '\n' = s :: goSplit rest '\n' := by
  unfold goSplit
  have hd : (s ++ "\n" ++ rest).data = s.data ++ '\n' :: rest.data := by
    simp [String.data_append]
  rw [hd, splitCh_append_sep _ _ _ h]
  simp [strMkData]

/-- Splitting `concatLines` over a newline-free prefix of chunks. -/
theorem goSplit_concatLines_prefix (pre rest : List String)
    (h : ∀ c ∈ pre, c.data.contains '\n' = false) :
    goSplit (concatLines (pre ++ rest)) '\n' = pre ++ goSplit (concatLines rest) '\n' := by
  induction pre with
  | nil => rfl
  | cons c cs ih =>
    have hc : concatLines ((c :: cs) ++ rest) = c ++ "\n" ++ concatLines (cs ++ rest) := rfl
    rw [hc, goSplit_append_line _ _ (h c (List.mem_cons_self c cs)),
      ih (fun x hx => h x (List.mem_cons_of_mem c hx))]
    rfl

/-- Splitting `concatLines` of newline-free chunks: the chunks plus a
final empty group. -/
theorem goSplit_concatLines (ls : List String) (h : ∀ c ∈ ls, c.data.contains '\n' = false) :
    goSplit (concatLines ls) '\n' = ls ++ [""] := by
  have := goSplit_concatLines_prefix ls [] h
  rw [List.append_nil] at this
  rw [this]
  rfl

/-- `splitFirst` at the first separator after a separator-free head. -/
theorem splitFirst_append_sep (sep : Char) (xs ys : List Char) (h : xs.contains sep = false) :
    splitFirst sep (xs ++ sep :: ys) = some (xs, ys) := by
  induction xs with
  | nil => simp [splitFirst]
  | cons c cs ih =>
    rw [List.contains_cons, Bool.or_eq_false_iff] at h
    have hc : ¬(c = sep) := by
      intro e
      subst e
      simp at h
    rw [List.cons_append, splitFirst, if_neg hc, ih h.2]
    rfl

/-- A list all of whose members differ from `c` does not contain `c`. -/
theorem contains_false_of_forall (l : List Char) (c : Char) (h : ∀ x ∈ l, x ≠ c) :
    l.contains c = false := by
  induction l with
  | nil => rfl
  | cons x xs ih =>
    rw [List.contains_cons, Bool.or_eq_false_iff]
    refine ⟨?_, ih (fun y hy => h y (List.mem_cons_of_mem x hy))⟩
    have hx := h x (List.mem_cons_self x xs)
    simp only [beq_eq_false_iff_ne]
    exact fun e => hx e.symm

/-! ## Decimal representations contain no newline -/

/-- Decimal digit characters are never a newline. -/
theorem digitChar_lt_ten_ne_newline : ∀ m, m < 10 → Nat.digitChar m ≠ '\n' := by
  decide

/-- `Nat.toDigitsCore` at base 10 preserves newline-freedom. -/
theorem toDigitsCore_ne_newline (f : Nat) :
    ∀ (n : Nat) (ds : List Char), (∀ c ∈ ds, c ≠ '\n') →
      ∀ c ∈ Nat.toDigitsCore 10 f n ds, c ≠ '\n' := by
  induction f with
  | zero =>
    intro n ds h c hc
    exact h c hc
  | succ f ih =>
    intro n ds h c hc
    have hmod : n % 10 < 10 := Nat.mod_lt _ (by norm_num)
    rw [Nat.toDigitsCore] at hc
    split at hc
    · rcases List.mem_cons.mp hc with h1 | h1
      · rw [h1]
        exact digitChar_lt_ten_ne_newline _ hmod
      · exact h c h1
    · refine ih _ _ ?_ c hc
      intro x hx
      rcases List.mem_cons.mp hx with h1 | h1
      · rw [h1]
        exact digitChar_lt_ten_ne_newline _ hmod
      · exact h x h1

/-- The decimal string of a natural number contains no newline. -/
theorem natRepr_no_newline (n : Nat) : (toString n).data.contains '\n' = false := by
  refine contains_false_of_forall _ _ ?_
  intro x hx
  have hx' : x ∈ Nat.toDigits 10 n := hx
  exact toDigitsCore_ne_newline (n + 1) n [] (by intro c hc; cases hc) x hx'

/-! ## Prefix / contains helpers -/

/-- Members of a `c`-free list differ from `c`. -/
theorem forall_ne_of_contains (l : List Char) (c : Char) (h : l.contains c = false) :
    ∀ x ∈ l, x ≠ c := by
  induction l with
  | nil => intro x hx; cases hx
  | cons y ys ih =>
    rw [List.contains_cons, Bool.or_eq_false_iff] at h
    intro x hx
    rcases List.mem_cons.mp hx with h1 | h1
    · subst h1
      have := h.1
      simp only [beq_eq_false_iff_ne] at this
      exact fun e => this e.symm
    · exact ih h.2 x h1

/-- `contains` is false on an append of `c`-free lists. -/
theorem contains_append_false (l₁ l₂ : List Char) (c : Char)
    (h1 : l₁.contains c = false) (h2 : l₂.contains c = false) :
    (l₁ ++ l₂).contains c = false := by
  refine contains_false_of_forall _ _ ?_
  intro x hx
  rcases List.mem_append.mp hx with h | h
  · exact forall_ne_of_contains _ _ h1 x h
  · exact forall_ne_of_contains _ _ h2 x h

/-- `contains` is true on an append whose left part contains `c`. -/
theorem contains_append_left (l₁ l₂ : List Char) (c : Char) (h : l₁.contains c = true) :
    (l₁ ++ l₂).contains c = true := by
  induction l₁ with
  | nil => cases h
  | cons y ys ih =>
    rw [List.contains_cons] at h
    rw [List.cons_append, List.contains_cons]
    rcases Bool.or_eq_true_iff.mp h with h | h
    · rw [h]
      rfl
    · rw [ih h, Bool.or_true]

/-- A string is a Go prefix of itself followed by anything. -/
theorem goHasPrefix_append_self (a t : String) : goHasPrefix (a ++ t) a = true := by
  unfold goHasPrefix
  rw [String.data_append, List.isPrefixOf_iff_prefix]
  exact List.prefix_append _ _

/-- The lines of a `writeField` group are newline-free when the field
name and value are. -/
theorem optLine_no_newline (k v : String) (hk : k.data.contains '\n' = false)
    (hv : v.data.contains '\n' = false) :
    ∀ c ∈ optLine k v, c.data.contains '\n' = false := by
  intro c hc
  unfold optLine at hc
  split at hc
  · cases hc
  · rw [List.mem_singleton] at hc
    subst hc
    have hd : (k ++ ": " ++ v).data = k.data ++ (": ".data ++ v.data) := by
      simp [String.data_append]
    rw [hd]
    exact contains_append_false _ _ _ hk (contains_append_false _ _ _ (by rfl) hv)

/-- `Nat.toDigitsCore` at base 10 with fuel or a nonempty accumulator
never returns the empty list. -/
theorem toDigitsCore_ne_nil (f : Nat) :
    ∀ n ds, (1 ≤ f ∨ ds ≠ []) → Nat.toDigitsCore 10 f n ds ≠ [] := by
  induction f with
  | zero =>
    intro n ds h
    rcases h with h | h
    · omega
    · exact h
  | succ f ih =>
    intro n ds _
    rw [Nat.toDigitsCore]
    split
    · exact List.cons_ne_nil _ _
    · exact ih _ _ (.inr (List.cons_ne_nil _ _))

/-- The decimal string of a natural number is nonempty. -/
theorem natRepr_ne_empty (n : Nat) : toString n ≠ "" := by
  intro e
  have hd : (toString n).data = [] := by rw [e]
  exact toDigitsCore_ne_nil (n + 1) n [] (.inl (by omega)) hd

/-- `find?` skips a `writeField` group whose line fails the predicate. -/
theorem find?_optLine_none (pred : String → Bool) (k v : String)
    (h : pred (k ++ ": " ++ v) = false) :
    List.find? pred (optLine k v) = none := by
  unfold optLine
  split
  · rfl
  · simp [List.find?_singleton, h]

/-- Stepping `find?` over the split control file, one newline-free
group of chunks at a time. -/
theorem find?_groups_step (pred : String → Bool) (g : List String) (gs : List (List String))
    (hg1 : ∀ c ∈ g, c.data.contains '\n' = false)
    (hg2 : List.find? pred g = none) :
    (goSplit (concatLines (List.flatten (g :: gs))) '\n').find? pred
      = (goSplit (concatLines (List.flatten gs)) '\n').find? pred := by
  rw [List.flatten_cons, goSplit_concatLines_prefix g _ hg1, List.find?_append, hg2]
  rfl

/-- `find?` hits inside a newline-free group of chunks. -/
theorem find?_groups_hit (pred : String → Bool) (g : List String) (gs : List (List String))
    (t : String) (hg1 : ∀ c ∈ g, c.data.contains '\n' = false)
    (hit : List.find? pred g = some t) :
    (goSplit (concatLines (List.flatten (g :: gs))) '\n').find? pred = some t := by
  rw [List.flatten_cons, goSplit_concatLines_prefix g _ hg1, List.find?_append, hit]
  rfl

/-! ## C7: Installed-Size is recomputed -/

/-- Claim C7: the `Installed-Size` field of the emitted control file
equals the ceiling of the total payload byte count divided by 1024,
regardless of any supplied value — the metadata setter discards
`Installed-Size` and the control parser ignores an `Installed-Size`
line.  (The newline-freedom hypotheses keep the four fields emitted
before `Installed-Size` on single physical lines.) -/
theorem installed_size_recomputed (p : Package) (v : String) (m : Metadata)
    (h1 : p.metadata.package.data.contains '\n' = false)
    (h2 : p.metadata.version.data.contains '\n' = false)
    (h3 : p.metadata.architecture.data.contains '\n' = false)
    (h4 : p.metadata.maintainer.data.contains '\n' = false)
    (hv : v.data.contains '\n' = false) :
    (goSplit (generateControlFile p.metadata (payloadBytes p.files)) '\n').find?
        (fun l => goHasPrefix l "Installed-Size: ")
      = some ("Installed-Size: " ++ toString (payloadBytes p.files ⌈/⌉ 1024)) ∧
    payloadBytes p.files ⌈/⌉ 1024 = kbytesOf (payloadBytes p.files) ∧
    set p "Installed-Size" v = p ∧
    (parseControlFile ("Installed-Size: " ++ v) m).1 = m := by
  have hceil : payloadBytes p.files ⌈/⌉ 1024 = kbytesOf (payloadBytes p.files) := by
    have h1024 : payloadBytes p.files + 1024 - 1 = payloadBytes p.files + 1023 := by omega
    rw [Nat.ceilDiv_eq_add_pred_div, h1024, kbytesOf]
  refine ⟨?_, hceil, set_installedSize p v, ?_⟩
  · rw [hceil]
    show (goSplit (concatLines (List.flatten
        (optLine "Package" p.metadata.package ::
         optLine "Version" p.metadata.version ::
         optLine "Architecture" p.metadata.architecture ::
         optLine "Maintainer" p.metadata.maintainer ::
         optLine "Installed-Size" (toString (kbytesOf (payloadBytes p.files))) ::
         ([optLine "Section" p.metadata.sect,
           optLine "Priority" p.metadata.priority,
           optLine "Homepage" p.metadata.homepage,
           (if p.metadata.essential then optLine "Essential" "yes" else []),
           relLine "Depends" p.metadata.depends,
           relLine "Pre-Depends" p.metadata.preDepends,
           relLine "Recommends" p.metadata.recommends,
           relLine "Suggests" p.metadata.suggests,
           relLine "Enhances" p.metadata.enhances,
           relLine "Conflicts" p.metadata.conflicts,
           relLine "Breaks" p.metadata.breaks,
           relLine "Replaces" p.metadata.replaces,
           relLine "Provides" p.metadata.provides,
           optLine "Built-Using" p.metadata.builtUsing,
           optLine "Source" p.metadata.source] ++
          p.metadata.extraFields.map (fun kv => optLine kv.1 kv.2) ++
          [descriptionLines p.metadata.description])))) '\n').find?
        (fun l => goHasPrefix l "Installed-Size: ")
      = some ("Installed-Size: " ++ toString (kbytesOf (payloadBytes p.files)))
    rw [find?_groups_step _ _ _
      (optLine_no_newline "Package" p.metadata.package (by rfl) h1)
      (find?_optLine_none _ "Package" p.metadata.package (by rfl))]
    rw [find?_groups_step _ _ _
      (optLine_no_newline "Version" p.metadata.version (by rfl) h2)
      (find?_optLine_none _ "Version" p.metadata.version (by rfl))]
    rw [find?_groups_step _ _ _
      (optLine_no_newline "Architecture" p.metadata.architecture (by rfl) h3)
      (find?_optLine_none _ "Architecture" p.metadata.architecture (by rfl))]
    rw [find?_groups_step _ _ _
      (optLine_no_newline "Maintainer" p.metadata.maintainer (by rfl) h4)
      (find?_optLine_none _ "Maintainer" p.metadata.maintainer (by rfl))]
    refine find?_groups_hit _ _ _ _
      (optLine_no_newline "Installed-Size" _ (by rfl) (natRepr_no_newline _)) ?_
    have ht : ¬(toString (kbytesOf (payloadBytes p.files)) = "") := natRepr_ne_empty _
    unfold optLine
    rw [if_neg ht, List.find?_singleton, if_pos]
    · rfl
    · show goHasPrefix ("Installed-Size" ++ ": " ++ toString (kbytesOf (payloadBytes p.files)))
        "Installed-Size: " = true
      have he : ("Installed-Size" ++ ": " ++ toString (kbytesOf (payloadBytes p.files)))
          = "Installed-Size: " ++ toString (kbytesOf (payloadBytes p.files)) := rfl
      rw [he]
      exact goHasPrefix_append_self _ _
  · have hcl : ("Installed-Size: " ++ v).data.contains '\n' = false := by
      rw [String.data_append]
      exact contains_append_false _ _ _ (by rfl) hv
    have hsingle : goSplit ("Installed-Size: " ++ v) '\n' = ["Installed-Size: " ++ v] := by
      unfold goSplit
      rw [splitCh_of_not_contains _ _ hcl, List.map_cons, List.map_nil, strMkData]
    show parseLines (goSplit ("Installed-Size: " ++ v) '\n') m = m
    rw [hsingle]
    rfl

/-- A package with an empty payload. -/
def emptyPkg : Package :=
  ⟨{ Metadata.empty with
      package := "nul"
      version := "1"
      architecture := "all" }, Scripts.empty, [], []⟩

/-- Witness for C7: the 18-byte hello payload rounds up to
`Installed-Size: 1`, an empty payload yields `Installed-Size: 0`, and
a supplied value is discarded. -/
theorem installed_size_recomputed_witness :
    helloPkg.metadata.package.data.contains '\n' = false ∧
    helloPkg.metadata.version.data.contains '\n' = false ∧
    helloPkg.metadata.architecture.data.contains '\n' = false ∧
    helloPkg.metadata.maintainer.data.contains '\n' = false ∧
    ("99" : String).data.contains '\n' = false ∧
    ((goSplit (generateControlFile helloPkg.metadata (payloadBytes helloPkg.files)) '\n').find?
        (fun l => goHasPrefix l "Installed-Size: ")
      = some ("Installed-Size: " ++ toString (payloadBytes helloPkg.files ⌈/⌉ 1024))) ∧
    toString (payloadBytes helloPkg.files ⌈/⌉ 1024) = "1" ∧
    set helloPkg "Installed-Size" "99" = helloPkg ∧
    (goSplit (generateControlFile emptyPkg.metadata (payloadBytes emptyPkg.files)) '\n').find?
        (fun l => goHasPrefix l "Installed-Size: ") = some "Installed-Size: 0" := by
  refine ⟨rfl, rfl, rfl, rfl, rfl, ?_, by decide, ?_, ?_⟩
  · exact (installed_size_recomputed helloPkg "99" Metadata.empty rfl rfl rfl rfl rfl).1
  · exact (installed_size_recomputed helloPkg "99" Metadata.empty rfl rfl rfl rfl rfl).2.2.1
  · exact (installed_size_recomputed emptyPkg "99" Metadata.empty rfl rfl rfl rfl rfl).1

/-! ## C4 counterexample: bare multi-line descriptions do not round-trip -/

/-- A package whose description has a second line without the leading
space of the emitted encoding. -/
def bareDescPkg : Package :=
  ⟨{ Metadata.empty with
      package := "a"
      version := "1"
      architecture := "all"
      description := "a\nb" }, Scripts.empty, [], []⟩

/-- Claim C4 (counterexample): parsing the serialized form of a
package whose multi-line description is not in the emitted encoding
yields a different digest — the emitter adds the leading space
(`"a\nb"` becomes the control lines `Description: a` and `" b"`), and
the parser keeps the encoded form verbatim (`"a\n b"`), which the
digest absorbs as-is. -/
theorem roundtrip_digest_fails_on_bare_description :
    (newPackage (writeToDeb (fun _ => "") bareDescPkg)).toOption.map
        (fun q => q.metadata.description) = some "a\n b" ∧
    (newPackage (writeToDeb (fun _ => "") bareDescPkg)).toOption.map digest ≠
      some (digest bareDescPkg) := by
  refine ⟨by decide, by decide⟩

/-! ## String order instances (for the insertion sorts) -/

/-- `leChars` is total. -/
theorem leChars_total : ∀ a b : List Char, leChars a b = true ∨ leChars b a = true := by
  intro a
  induction a with
  | nil => intro b; exact .inl rfl
  | cons x xs ih =>
    intro b
    cases b with
    | nil => exact .inr rfl
    | cons y ys =>
      by_cases hxy : x = y
      · subst hxy
        rcases ih ys with h | h
        · exact .inl (by simp [leChars, h])
        · exact .inr (by simp [leChars, h])
      · rcases lt_trichotomy x y with h | h | h
        · exact .inl (by simp [leChars, hxy, h])
        · exact absurd h hxy
        · have hyx : ¬(y = x) := fun e => hxy e.symm
          exact .inr (by simp [leChars, hyx, h])

/-- `leChars` is transitive. -/
theorem leChars_trans : ∀ a b c : List Char,
    leChars a b = true → leChars b c = true → leChars a c = true := by
  intro a
  induction a with
  | nil => intro b c _ _; rfl
  | cons x xs ih =>
    intro b c hab hbc
    cases b with
    | nil => cases hab
    | cons y ys =>
      cases c with
      | nil => cases hbc
      | cons z zs =>
        rw [leChars] at hab hbc ⊢
        by_cases hxy : x = y
        · subst hxy
          rw [if_pos rfl] at hab
          by_cases hyz : x = z
          · subst hyz
            rw [if_pos rfl] at hbc
            rw [if_pos rfl]
            exact ih ys zs hab hbc
          · rw [if_neg hyz] at hbc ⊢
            exact hbc
        · rw [if_neg hxy] at hab
          by_cases hyz : y = z
          · subst hyz
            rw [if_neg hxy]
            exact hab
          · rw [if_neg hyz] at hbc
            have hxz : x < z := lt_trans (of_decide_eq_true hab) (of_decide_eq_true hbc)
            have hne : ¬(x = z) := ne_of_lt hxz
            rw [if_neg hne]
            exact decide_eq_true hxz

/-- `leChars` is antisymmetric. -/
theorem leChars_antisymm : ∀ a b : List Char,
    leChars a b = true → leChars b a = true → a = b := by
  intro a
  induction a with
  | nil =>
    intro b _ hba
    cases b with
    | nil => rfl
    | cons y ys => cases hba
  | cons x xs ih =>
    intro b hab hba
    cases b with
    | nil => cases hab
    | cons y ys =>
      rw [leChars] at hab hba
      by_cases hxy : x = y
      · subst hxy
        rw [if_pos rfl] at hab hba
        rw [ih ys hab hba]
      · rw [if_neg hxy] at hab
        rw [if_neg (fun e => hxy e.symm)] at hba
        exact absurd (lt_trans (of_decide_eq_true hab) (of_decide_eq_true hba))
          (lt_irrefl x)

instance : IsTotal String strLe :=
  ⟨fun a b => leChars_total a.data b.data⟩

instance : IsTrans String strLe :=
  ⟨fun a b c => leChars_trans a.data b.data c.data⟩

instance : IsAntisymm String strLe :=
  ⟨fun a b hab hba => by
    have := leChars_antisymm a.data b.data hab hba
    calc a = String.mk a.data := (strMkData a).symm
    _ = String.mk b.data := by rw [this]
    _ = b := strMkData b⟩

instance : IsTotal PFile fileLe :=
  ⟨fun a b => leChars_total a.destPath.data b.destPath.data⟩

instance : IsTrans PFile fileLe :=
  ⟨fun a b c => leChars_trans a.destPath.data b.destPath.data c.destPath.data⟩

/-- `sortStrings` sorts. -/
theorem sortStrings_sorted (l : List String) : (sortStrings l).Sorted strLe :=
  List.sorted_insertionSort strLe l

/-- `sortStrings` permutes. -/
theorem sortStrings_perm (l : List String) : (sortStrings l).Perm l :=
  List.perm_insertionSort strLe l

/-- `sortStrings` is the identity on sorted lists. -/
theorem sortStrings_of_sorted (l : List String) (h : l.Sorted strLe) : sortStrings l = l :=
  List.Sorted.insertionSort_eq h

/-! ## Map-lookup lemmas (association lists with distinct keys) -/

/-- `lookup` misses keys that are not in the map. -/
theorem lookup_eq_none_of_not_mem (l : List (String × String)) (k : String)
    (h : k ∉ l.map Prod.fst) : l.lookup k = none := by
  induction l with
  | nil => rfl
  | cons kv rest ih =>
    rw [List.map_cons, List.mem_cons] at h
    push_neg at h
    have hne : (k == kv.1) = false := by
      simp only [beq_eq_false_iff_ne]
      exact h.1
    show (match k == kv.1 with
      | true => some kv.2
      | false => List.lookup k rest) = none
    rw [hne]
    exact ih h.2

/-- In a map with distinct keys, `lookup` finds the stored value. -/
theorem lookup_eq_some_of_mem (l : List (String × String)) (k v : String)
    (hn : (l.map Prod.fst).Nodup) (h : (k, v) ∈ l) : l.lookup k = some v := by
  induction l with
  | nil => cases h
  | cons kv rest ih =>
    rw [List.map_cons, List.nodup_cons] at hn
    show (match k == kv.1 with
      | true => some kv.2
      | false => List.lookup k rest) = some v
    rcases List.mem_cons.mp h with h1 | h1
    · have e1 : kv.1 = k := by rw [← h1]
      have e2 : kv.2 = v := by rw [← h1]
      rw [e1, e2]
      simp
    · have hk : (k == kv.1) = false := by
        simp only [beq_eq_false_iff_ne]
        intro e
        exact hn.1 (e ▸ List.mem_map_of_mem Prod.fst h1)
      rw [hk]
      exact ih hn.2 h1

/-- `lookup` is invariant under permutation of a distinct-key map. -/
theorem lookup_perm (l₁ l₂ : List (String × String)) (k : String)
    (hp : l₁.Perm l₂) (hn : (l₁.map Prod.fst).Nodup) : l₁.lookup k = l₂.lookup k := by
  have hn₂ : (l₂.map Prod.fst).Nodup := ((hp.map Prod.fst).nodup_iff).mp hn
  by_cases hk : k ∈ l₁.map Prod.fst
  · rcases List.mem_map.mp hk with ⟨kv, hkv, hfst⟩
    have hmem : (k, kv.2) ∈ l₁ := by
      have : kv = (k, kv.2) := by
        cases kv
        simp at hfst
        rw [hfst]
      exact this ▸ hkv
    rw [lookup_eq_some_of_mem l₁ k kv.2 hn hmem,
      lookup_eq_some_of_mem l₂ k kv.2 hn₂ (hp.mem_iff.mp hmem)]
  · have hk₂ : k ∉ l₂.map Prod.fst := fun h => hk (((hp.map Prod.fst).mem_iff).mpr h)
    rw [lookup_eq_none_of_not_mem l₁ k hk, lookup_eq_none_of_not_mem l₂ k hk₂]

/-- Re-pairing the keys of a distinct-key map with their looked-up
values reproduces the map. -/
theorem map_keys_lookup (l : List (String × String)) (hn : (l.map Prod.fst).Nodup) :
    (l.map Prod.fst).map (fun k => (k, lookupD l k)) = l := by
  induction l with
  | nil => rfl
  | cons kv rest ih =>
    rw [List.map_cons, List.nodup_cons] at hn
    rw [List.map_cons, List.map_cons]
    congr 1
    · show (kv.1, lookupD (kv :: rest) kv.1) = kv
      have h1 : lookupD (kv :: rest) kv.1 = kv.2 := by
        unfold lookupD
        show (Option.getD (match kv.1 == kv.1 with
          | true => some kv.2
          | false => List.lookup kv.1 rest) "") = kv.2
        simp
      rw [h1]
    · have hcg : List.map (fun k => (k, lookupD (kv :: rest) k)) (rest.map Prod.fst)
          = List.map (fun k => (k, lookupD rest k)) (rest.map Prod.fst) := by
        refine List.map_congr_left ?_
        intro k hk
        have hne : (k == kv.1) = false := by
          simp only [beq_eq_false_iff_ne]
          intro e
          exact hn.1 (e ▸ hk)
        unfold lookupD
        refine congrArg (fun y => (k, y)) ?_
        show (Option.getD (match k == kv.1 with
          | true => some kv.2
          | false => List.lookup k rest) "") = (List.lookup k rest).getD ""
        rw [hne]
      rw [hcg, ih hn.2]

/-- The keys of a key-sorted permutation agree after sorting. -/
theorem sortedKeys_perm_eq (l₁ l₂ : List (String × String)) (hp : l₁.Perm l₂) :
    sortedKeys l₁ = sortedKeys l₂ := by
  refine List.eq_of_perm_of_sorted ?_ (sortStrings_sorted _) (sortStrings_sorted _)
  exact (sortStrings_perm _).trans ((hp.map Prod.fst).trans (sortStrings_perm _).symm)

/-- `absorbKV` is invariant under permutation of a distinct-key map. -/
theorem absorbKV_perm (l₁ l₂ : List (String × String))
    (hp : l₁.Perm l₂) (hn : (l₁.map Prod.fst).Nodup) : absorbKV l₁ = absorbKV l₂ := by
  unfold absorbKV
  rw [sortedKeys_perm_eq l₁ l₂ hp]
  congr 1
  refine List.map_congr_left ?_
  intro k _
  unfold lookupD
  rw [lookup_perm l₁ l₂ k hp hn]

/-- The pairs of a distinct-key map listed in sorted key order: what
`extraControlEntries` effectively writes, and a permutation of the
map. -/
theorem sorted_pairs_perm (l : List (String × String)) (hn : (l.map Prod.fst).Nodup) :
    ((sortedKeys l).map (fun k => (k, lookupD l k))).Perm l := by
  have h1 : ((sortedKeys l).map (fun k => (k, lookupD l k))).Perm
      ((l.map Prod.fst).map (fun k => (k, lookupD l k))) :=
    (sortStrings_perm (l.map Prod.fst)).map _
  rw [map_keys_lookup l hn] at h1
  exact h1

/-! ## Trim and join helpers -/

/-- `splitCh` never returns the empty list. -/
theorem splitCh_ne_nil (sep : Char) (l : List Char) : splitCh sep l ≠ [] := by
  cases l with
  | nil => exact fun h => List.noConfusion h
  | cons c cs =>
    rw [splitCh]
    split
    · exact fun h => List.noConfusion h
    · cases hcs : splitCh sep cs with
      | nil => exact fun h => List.noConfusion h
      | cons g gs => exact fun h => List.noConfusion h

/-- Pieces of `splitCh` do not contain the separator. -/
theorem splitCh_pieces_free (sep : Char) : ∀ (l : List Char), ∀ g ∈ splitCh sep l,
    g.contains sep = false := by
  intro l
  induction l with
  | nil =>
    intro g hg
    rw [splitCh, List.mem_singleton] at hg
    rw [hg]
    rfl
  | cons c cs ih =>
    intro g hg
    rw [splitCh] at hg
    split at hg
    · rcases List.mem_cons.mp hg with h | h
      · rw [h]
        rfl
      · exact ih g h
    · rename_i hc
      cases hcs : splitCh sep cs with
      | nil => exact absurd hcs (splitCh_ne_nil sep cs)
      | cons g₀ gs =>
        rw [hcs] at hg
        rcases List.mem_cons.mp hg with h | h
        · rw [h, List.contains_cons, Bool.or_eq_false_iff]
          refine ⟨?_, ih g₀ (hcs ▸ List.mem_cons_self g₀ gs)⟩
          simp only [beq_eq_false_iff_ne]
          exact fun e => hc e.symm
        · exact ih g (hcs ▸ List.mem_cons_of_mem g₀ h)

/-- The separator-interleaved concatenation of split pieces. -/
def joinChSep (sep : Char) : List (List Char) → List Char
  | [] => []
  | [g] => g
  | g :: gs => g ++ sep :: joinChSep sep gs

/-- `joinChSep` on a cons with nonempty tail. -/
theorem joinChSep_cons (sep : Char) (g : List Char) (g₀ : List Char) (gs : List (List Char)) :
    joinChSep sep (g :: g₀ :: gs) = g ++ sep :: joinChSep sep (g₀ :: gs) := rfl

/-- `joinChSep` undoes `splitCh`. -/
theorem joinChSep_splitCh (sep : Char) : ∀ (l : List Char),
    joinChSep sep (splitCh sep l) = l := by
  intro l
  induction l with
  | nil => rfl
  | cons c cs ih =>
    rw [splitCh]
    split
    · rename_i hc
      subst hc
      cases hcs : splitCh c cs with
      | nil => exact absurd hcs (splitCh_ne_nil c cs)
      | cons g gs =>
        rw [joinChSep_cons, List.nil_append]
        rw [hcs] at ih
        rw [ih]
    · cases hcs : splitCh sep cs with
      | nil => exact absurd hcs (splitCh_ne_nil sep cs)
      | cons g gs =>
        rw [hcs] at ih
        cases gs with
        | nil =>
          show c :: g = c :: cs
          rw [show joinChSep sep [g] = g from rfl] at ih
          rw [ih]
        | cons g₀ gs' =>
          rw [joinChSep_cons] at ih ⊢
          rw [List.cons_append, ih]

/-- Dropping a satisfied-prefix step of `dropWhile` leaves a shorter
list, so a `dropWhile` fixpoint has an unsatisfying head. -/
theorem dropWhile_eq_self_head (p : Char → Bool) (l : List Char)
    (h : l.dropWhile p = l) : ∀ c, l.head? = some c → p c = false := by
  intro c hc
  cases l with
  | nil => cases hc
  | cons x xs =>
    rw [List.head?_cons, Option.some_inj] at hc
    subst hc
    by_contra hp
    rw [Bool.not_eq_false] at hp
    rw [List.dropWhile_cons_of_pos hp] at h
    have := congrArg List.length h
    rw [List.length_cons] at this
    have hle := ((List.dropWhile_sublist (l := xs) p)).length_le
    omega

/-- A string whose first and last characters are not Go whitespace is
`TrimSpace`-stable. -/
theorem goTrim_eq_self (s : String)
    (h1 : ∀ c, s.data.head? = some c → isGoSpace c = false)
    (h2 : ∀ c, s.data.getLast? = some c → isGoSpace c = false) : goTrim s = s := by
  have hl : trimLeftCh s.data = s.data := by
    cases hd : s.data with
    | nil => rfl
    | cons c cs =>
      unfold trimLeftCh
      rw [List.dropWhile_cons_of_neg]
      rw [Bool.not_eq_true]
      exact h1 c (by rw [hd]; rfl)
  have hr : trimRightCh s.data = s.data := by
    unfold trimRightCh
    cases hd : s.data.reverse with
    | nil =>
      rw [List.dropWhile_nil, ← hd, List.reverse_reverse]
    | cons c cs =>
      rw [List.dropWhile_cons_of_neg, ← hd, List.reverse_reverse]
      rw [Bool.not_eq_true]
      refine h2 c ?_
      rw [← List.head?_reverse, hd]
      rfl
  unfold goTrim
  rw [hl, hr, strMkData]

/-- A right-trim-stable nonempty tail keeps an append right-trim
stable. -/
theorem trimRight_append_stable (l₁ l₂ : List Char) (h2 : l₂ ≠ [])
    (hs : trimRightCh l₂ = l₂) : trimRightCh (l₁ ++ l₂) = l₁ ++ l₂ := by
  have hrev : l₂.reverse.dropWhile isGoSpace = l₂.reverse := by
    have := congrArg List.reverse hs
    rw [trimRightCh, List.reverse_reverse] at this
    exact this
  unfold trimRightCh
  rw [List.reverse_append]
  cases hd : l₂.reverse with
  | nil =>
    exact absurd (by simpa using hd) h2
  | cons c cs =>
    rw [List.cons_append, List.dropWhile_cons_of_neg, ← List.cons_append, ← hd,
      List.reverse_append, List.reverse_reverse, List.reverse_reverse]
    rw [Bool.not_eq_true]
    refine dropWhile_eq_self_head isGoSpace l₂.reverse hrev c ?_
    rw [hd]
    rfl

/-- Go trim after a leading space: the space is dropped. -/
theorem goTrim_cons_space (l : List Char) :
    goTrim (String.mk (' ' :: l)) = goTrim (String.mk l) := by
  unfold goTrim trimLeftCh
  rw [show (String.mk (' ' :: l)).data = ' ' :: l from rfl,
    List.dropWhile_cons_of_pos (by rfl)]

/-- A string is empty iff its character list is. -/
theorem data_eq_nil_iff (s : String) : s.data = [] ↔ s = "" := by
  constructor
  · intro h
    rw [← strMkData s, h]
  · intro h
    rw [h]

/-- A join headed by a nonempty string is nonempty. -/
theorem goJoin_ne_empty (x : String) (rest : List String) (sep : String) (hx : x ≠ "") :
    goJoin (x :: rest) sep ≠ "" := by
  intro h
  cases rest with
  | nil => exact hx h
  | cons y ys =>
    rw [show goJoin (x :: y :: ys) sep = x ++ sep ++ goJoin (y :: ys) sep from rfl] at h
    rw [← data_eq_nil_iff] at h
    simp only [String.data_append] at h
    rw [List.append_eq_nil, List.append_eq_nil] at h
    exact hx ((data_eq_nil_iff x).mp h.1.1)

/-- `splitList` undoes a comma-join of trimmed, comma-free, nonempty
items. -/
theorem splitList_goJoin : ∀ (items : List String), items ≠ [] →
    (∀ x ∈ items, x ≠ "" ∧ x.data.contains ',' = false ∧ goTrim x = x) →
    splitList (goJoin items ", ") = items := by
  have key : ∀ (items : List String), items ≠ [] →
      (∀ x ∈ items, x ≠ "" ∧ x.data.contains ',' = false ∧ goTrim x = x) →
      (splitCh ',' (goJoin items ", ").data).map (fun l => goTrim (String.mk l)) = items := by
    intro items
    induction items with
    | nil => intro h; exact absurd rfl h
    | cons x rest ih =>
      intro _ hw
      obtain ⟨hx1, hx2, hx3⟩ := hw x (List.mem_cons_self x rest)
      cases rest with
      | nil =>
        rw [show goJoin [x] ", " = x from rfl, splitCh_of_not_contains ',' x.data hx2]
        rw [List.map_singleton, strMkData, hx3]
      | cons y ys =>
        have hd : (goJoin (x :: y :: ys) ", ").data
            = x.data ++ ',' :: (' ' :: (goJoin (y :: ys) ", ").data) := by
          rw [show goJoin (x :: y :: ys) ", " = x ++ ", " ++ goJoin (y :: ys) ", " from rfl]
          simp [String.data_append]
        rw [hd, splitCh_append_sep ',' x.data _ hx2]
        have hih := ih (fun h => List.noConfusion h)
          (fun z hz => hw z (List.mem_cons_of_mem x hz))
        cases hsp : splitCh ',' (goJoin (y :: ys) ", ").data with
        | nil => exact absurd hsp (splitCh_ne_nil _ _)
        | cons g gs =>
          rw [hsp] at hih
          rw [show splitCh ',' (' ' :: (goJoin (y :: ys) ", ").data)
              = (' ' :: g) :: gs from by rw [splitCh, if_neg (by decide), hsp]]
          rw [List.map_cons, List.map_cons, strMkData, hx3, goTrim_cons_space]
          rw [List.map_cons] at hih
          rw [hih]
  intro items hne hw
  have hjoin : goJoin items ", " ≠ "" := by
    cases items with
    | nil => exact absurd rfl hne
    | cons x rest => exact goJoin_ne_empty x rest ", " (hw x (List.mem_cons_self x rest)).1
  unfold splitList
  rw [if_neg hjoin]
  unfold goSplit
  rw [List.map_map]
  exact key items hne hw

/-- `goSplit` undoes a newline-join of newline-free strings. -/
theorem goSplit_goJoin_nl : ∀ (ls : List String), ls ≠ [] →
    (∀ x ∈ ls, x.data.contains '\n' = false) →
    goSplit (goJoin ls "\n") '\n' = ls := by
  intro ls
  induction ls with
  | nil => intro h; exact absurd rfl h
  | cons x rest ih =>
    intro _ hw
    cases rest with
    | nil =>
      show goSplit x '\n' = [x]
      unfold goSplit
      rw [splitCh_of_not_contains '\n' x.data (hw x (List.mem_cons_self x []))]
      rw [List.map_singleton, strMkData]
    | cons y ys =>
      have hd : (goJoin (x :: y :: ys) "\n").data
          = x.data ++ '\n' :: (goJoin (y :: ys) "\n").data := by
        rw [show goJoin (x :: y :: ys) "\n" = x ++ "\n" ++ goJoin (y :: ys) "\n" from rfl]
        simp [String.data_append]
      unfold goSplit
      rw [hd, splitCh_append_sep '\n' x.data _ (hw x (List.mem_cons_self x _)), List.map_cons,
        strMkData]
      have hih := ih (fun h => List.noConfusion h)
        (fun z hz => hw z (List.mem_cons_of_mem x hz))
      unfold goSplit at hih
      rw [hih]

/-- A one-character Go prefix only looks at the head. -/
theorem goHasPrefix_char_append (c : Char) (k t : String) (hk : k.data ≠ []) :
    goHasPrefix (k ++ t) (String.mk [c]) = goHasPrefix k (String.mk [c]) := by
  unfold goHasPrefix
  rw [String.data_append]
  cases hd : k.data with
  | nil => exact absurd hd hk
  | cons d ds =>
    simp [List.isPrefixOf]

/-- `strings.TrimPrefix` after prepending the prefix. -/
theorem goTrimPrefix_append_self (a t : String) : goTrimPrefix (a ++ t) a = t := by
  unfold goTrimPrefix
  rw [if_pos (goHasPrefix_append_self a t), String.data_append, List.drop_left, strMkData]

/-- A string with a leading slash is that slash plus its tail. -/
theorem slash_head (d : String) (h : goHasPrefix d "/" = true) :
    d.data = '/' :: d.data.drop 1 := by
  cases hd : d.data with
  | nil =>
    unfold goHasPrefix at h
    rw [hd] at h
    cases h
  | cons c cs =>
    unfold goHasPrefix at h
    rw [hd] at h
    have hc : '/' = c := by
      have h2 : List.isPrefixOf ['/'] (c :: cs) = true := h
      simpa [List.isPrefixOf] using h2
    rw [← hc]
    rfl

/-! ## Parser fold machinery -/

/-- `contains` is true on an append whose right part contains `c`. -/
theorem contains_append_right (l₁ l₂ : List Char) (c : Char) (h : l₂.contains c = true) :
    (l₁ ++ l₂).contains c = true := by
  induction l₁ with
  | nil => exact h
  | cons x xs ih => rw [List.cons_append, List.contains_cons, ih, Bool.or_true]

/-- The final flush of `parseControlFile`. -/
def flushFinal (st : PState) : Metadata := flushInto st.key st.val st.md

/-- The field pairs of one `writeField` call: none when the value is
empty. -/
def optPair (k v : String) : List (String × String) := if v = "" then [] else [(k, v)]

/-- The parser state after a sequence of single-line fields. -/
def afterFields (pairs : List (String × String)) (st : PState) : PState :=
  pairs.foldl (fun s kv => ⟨kv.1, kv.2, flushFinal s⟩) st

/-- Flushing a pair sequence into a metadata value. -/
def flushPairs (pairs : List (String × String)) (m : Metadata) : Metadata :=
  pairs.foldl (fun m kv => flushInto kv.1 kv.2 m) m

/-- `afterFields` splits over appends. -/
theorem afterFields_append (a b : List (String × String)) (st : PState) :
    afterFields (a ++ b) st = afterFields b (afterFields a st) := by
  unfold afterFields
  rw [List.foldl_append]

/-- The final flush after absorbing fields is the flush of all of
them. -/
theorem flushFinal_afterFields : ∀ (pairs : List (String × String)) (st : PState),
    flushFinal (afterFields pairs st) = flushPairs pairs (flushFinal st) := by
  intro pairs
  induction pairs with
  | nil => intro st; rfl
  | cons kv ps ih =>
    intro st
    show flushFinal (afterFields ps ⟨kv.1, kv.2, flushFinal st⟩)
      = flushPairs ps (flushInto kv.1 kv.2 (flushFinal st))
    rw [ih]
    rfl

/-- A `Key: value` line advances the parser by flushing the pending
field and making this one pending. -/
theorem step_field_line (k v : String) (st : PState)
    (hk : k.data.contains ':' = false)
    (hsp : goHasPrefix (k ++ ": " ++ v) " " = false)
    (htb : goHasPrefix (k ++ ": " ++ v) "\t" = false)
    (hv : goTrim v = v) :
    stepLine st (k ++ ": " ++ v) = ⟨k, v, flushFinal st⟩ := by
  have hshape : (k ++ ": " ++ v).data = k.data ++ ':' :: (' ' :: v.data) := by
    rw [String.data_append, String.data_append,
      show (": " : String).data = [':', ' '] from rfl, List.append_assoc]
    rfl
  have hcont : goContainsChar (k ++ ": " ++ v) ':' = true := by
    unfold goContainsChar
    rw [hshape]
    exact contains_append_right _ _ _ (by simp [List.contains_cons])
  unfold stepLine
  rw [hsp, htb]
  rw [if_neg (by simp)]
  rw [if_pos hcont, hshape, splitFirst_append_sep ':' k.data _ hk]
  show PState.mk (String.mk k.data) (goTrim (String.mk (' ' :: v.data))) (flushFinal st)
    = ⟨k, v, flushFinal st⟩
  rw [strMkData, goTrim_cons_space, strMkData, hv]

/-- A `writeField` group advances the parser by `afterFields` of its
pair. -/
theorem fold_optLine (k v : String) (rest : List String) (st : PState)
    (hk : k.data.contains ':' = false)
    (hsp : goHasPrefix (k ++ ": " ++ v) " " = false)
    (htb : goHasPrefix (k ++ ": " ++ v) "\t" = false)
    (hv : goTrim v = v) :
    List.foldl stepLine st (optLine k v ++ rest)
      = List.foldl stepLine (afterFields (optPair k v) st) rest := by
  unfold optLine optPair
  split
  · rfl
  · rw [List.cons_append, List.foldl_cons, step_field_line k v st hk hsp htb hv]
    rfl

/-- Continuation lines only extend the pending value. -/
theorem fold_cont_lines : ∀ (ls : List String) (st : PState),
    (∀ l ∈ ls, goHasPrefix l " " = true) →
    List.foldl stepLine st ls
      = ⟨st.key, ls.foldl (fun v l => v ++ "\n" ++ l) st.val, st.md⟩ := by
  intro ls
  induction ls with
  | nil => intro st _; rfl
  | cons l ls ih =>
    intro st hl
    rw [List.foldl_cons, List.foldl_cons]
    have hstep : stepLine st l = ⟨st.key, st.val ++ "\n" ++ l, st.md⟩ := by
      unfold stepLine
      rw [hl l (List.mem_cons_self l ls), Bool.true_or]
      rfl
    rw [hstep, ih ⟨st.key, st.val ++ "\n" ++ l, st.md⟩
      (fun x hx => hl x (List.mem_cons_of_mem l hx))]

/-- The trailing empty line of a control file is ignored. -/
theorem stepLine_empty (st : PState) : stepLine st "" = st := rfl

/-- `flushPairs` splits over appends. -/
theorem flushPairs_append (a b : List (String × String)) (m : Metadata) :
    flushPairs (a ++ b) m = flushPairs b (flushPairs a m) := by
  unfold flushPairs
  rw [List.foldl_append]

/-- A possibly-empty field flushes like a plain flush whenever the
empty flush is a no-op. -/
theorem flushPairs_optPair (k v : String) (m : Metadata) (hid : flushInto k "" m = m) :
    flushPairs (optPair k v) m = flushInto k v m := by
  unfold optPair flushPairs
  split
  · rename_i h
    subst h
    exact hid.symm
  · rfl

/-- `relLine` is `optLine` of the comma-join. -/
theorem relLine_eq (k : String) (items : List String) :
    relLine k items = optLine k (goJoin items ", ") := by
  unfold relLine
  split
  · rename_i h
    rw [List.isEmpty_iff.mp h]
    rfl
  · rfl

/-- The `Essential` group is `optLine` of a conditional value. -/
theorem essential_group_eq (b : Bool) :
    (if b then optLine "Essential" "yes" else []) = optLine "Essential" (if b then "yes" else "") := by
  cases b <;> rfl

/-! ## Well-formedness of a package for the serialize/parse round trip -/

/-- A scalar field value that survives emission and reparsing: no
newline, `TrimSpace`-stable. -/
def lineSafe (s : String) : Prop := s.data.contains '\n' = false ∧ goTrim s = s

/-- Relationship-list elements that survive the comma join/split:
nonempty, comma-free, newline-free, trimmed. -/
def listSafe (l : List String) : Prop :=
  ∀ x ∈ l, x ≠ "" ∧ x.data.contains ',' = false ∧ x.data.contains '\n' = false ∧ goTrim x = x

/-- The control keys routed to structured fields (or discarded). -/
def knownFieldKeys : List String :=
  ["Package", "Version", "Architecture", "Maintainer", "Description", "Section",
   "Priority", "Homepage", "Essential", "Depends", "Pre-Depends", "Recommends",
   "Suggests", "Enhances", "Conflicts", "Breaks", "Replaces", "Provides",
   "Built-Using", "Source", "Installed-Size"]

/-- A user-defined field that survives emission and reparsing. -/
def extraPairSafe (kv : String × String) : Prop :=
  kv.1 ∉ knownFieldKeys ∧ kv.1 ≠ "" ∧ kv.1.data.contains ':' = false ∧
  kv.1.data.contains '\n' = false ∧ goHasPrefix kv.1 " " = false ∧
  goHasPrefix kv.1 "\t" = false ∧ kv.2 ≠ "" ∧ kv.2.data.contains '\n' = false ∧
  goTrim kv.2 = kv.2

/-- A description in the emitted normal form: empty, or a nonempty
trimmed synopsis followed by lines that already carry the leading
space, are not whitespace-only, and carry no trailing whitespace. -/
def descSafe (d : String) : Prop :=
  d = "" ∨
    ((goSplit d '\n').headD "" ≠ "" ∧ goTrim ((goSplit d '\n').headD "") = (goSplit d '\n').headD "" ∧
     ∀ l ∈ (goSplit d '\n').tail,
       goHasPrefix l " " = true ∧ goTrim l ≠ "" ∧ trimRightCh l.data = l.data)

/-- Metadata that survives the control-file round trip. -/
def wfMetadata (m : Metadata) : Prop :=
  lineSafe m.package ∧ lineSafe m.version ∧ lineSafe m.architecture ∧ lineSafe m.maintainer ∧
  lineSafe m.sect ∧ lineSafe m.priority ∧ lineSafe m.homepage ∧ lineSafe m.builtUsing ∧
  lineSafe m.source ∧ descSafe m.description ∧
  listSafe m.depends ∧ listSafe m.preDepends ∧ listSafe m.recommends ∧ listSafe m.suggests ∧
  listSafe m.enhances ∧ listSafe m.conflicts ∧ listSafe m.breaks ∧ listSafe m.replaces ∧
  listSafe m.provides ∧
  (m.extraFields.map Prod.fst).Nodup ∧ (∀ kv ∈ m.extraFields, extraPairSafe kv)

/-! ## Consequences of trim stability -/

/-- A `TrimSpace`-stable string is stable under each one-sided trim. -/
theorem goTrim_stable_both (s : String) (h : goTrim s = s) :
    trimLeftCh s.data = s.data ∧ trimRightCh s.data = s.data := by
  have hdata : trimRightCh (trimLeftCh s.data) = s.data := congrArg String.data h
  have hsub1 : (trimLeftCh s.data).Sublist s.data := List.dropWhile_sublist _
  have hsub2 : (trimRightCh (trimLeftCh s.data)).Sublist (trimLeftCh s.data) := by
    unfold trimRightCh
    have := List.dropWhile_sublist (l := (trimLeftCh s.data).reverse) isGoSpace
    have h2 := this.reverse
    rwa [List.reverse_reverse] at h2
  have hlen : s.data.length ≤ (trimLeftCh s.data).length := by
    have := congrArg List.length hdata
    have h2 := hsub2.length_le
    omega
  have hleft : trimLeftCh s.data = s.data := hsub1.eq_of_length (le_antisymm hsub1.length_le hlen)
  refine ⟨hleft, ?_⟩
  rw [← hleft]
  rw [hleft]
  rw [hleft] at hdata
  exact hdata

/-- The head of a `TrimSpace`-stable string is not whitespace. -/
theorem goTrim_stable_head (s : String) (h : goTrim s = s) :
    ∀ c, s.data.head? = some c → isGoSpace c = false := by
  have hl := (goTrim_stable_both s h).1
  exact dropWhile_eq_self_head isGoSpace s.data hl

/-- The last character of a `TrimSpace`-stable string is not
whitespace. -/
theorem goTrim_stable_last (s : String) (h : goTrim s = s) :
    ∀ c, s.data.getLast? = some c → isGoSpace c = false := by
  have hr := (goTrim_stable_both s h).2
  have hrev : s.data.reverse.dropWhile isGoSpace = s.data.reverse := by
    have := congrArg List.reverse hr
    rwa [trimRightCh, List.reverse_reverse] at this
  intro c hc
  refine dropWhile_eq_self_head isGoSpace s.data.reverse hrev c ?_
  rw [List.head?_reverse]
  exact hc

/-- A join of newline-free strings with a newline-free separator is
newline-free. -/
theorem goJoin_no_newline (items : List String) (sep : String)
    (hi : ∀ x ∈ items, x.data.contains '\n' = false)
    (hs : sep.data.contains '\n' = false) :
    (goJoin items sep).data.contains '\n' = false := by
  induction items with
  | nil => rfl
  | cons x rest ih =>
    cases rest with
    | nil => exact hi x (List.mem_cons_self x [])
    | cons y ys =>
      rw [show goJoin (x :: y :: ys) sep = x ++ sep ++ goJoin (y :: ys) sep from rfl]
      rw [String.data_append, String.data_append]
      refine contains_append_false _ _ _ (contains_append_false _ _ _
        (hi x (List.mem_cons_self x _)) hs) ?_
      exact ih (fun z hz => hi z (List.mem_cons_of_mem x hz))

/-- The head of a join with a nonempty first element. -/
theorem goJoin_head_char (x : String) (rest : List String) (sep : String) (hx : x.data ≠ []) :
    (goJoin (x :: rest) sep).data.head? = x.data.head? := by
  cases rest with
  | nil => rfl
  | cons y ys =>
    rw [show goJoin (x :: y :: ys) sep = x ++ sep ++ goJoin (y :: ys) sep from rfl]
    rw [String.data_append, String.data_append]
    cases hd : x.data with
    | nil => exact absurd hd hx
    | cons c cs => rfl

/-- The last character of a join of nonempty elements is the last
element's. -/
theorem goJoin_last_char (sep : String) : ∀ (rest : List String) (x : String),
    (∀ z ∈ x :: rest, z ≠ "") →
    (goJoin (x :: rest) sep).data.getLast?
      = ((x :: rest).getLast (fun h => List.noConfusion h)).data.getLast? := by
  intro rest
  induction rest with
  | nil => intro x _; rfl
  | cons y ys ih =>
    intro x hz
    rw [show goJoin (x :: y :: ys) sep = x ++ sep ++ goJoin (y :: ys) sep from rfl]
    rw [String.data_append, String.data_append]
    have hjoin : (goJoin (y :: ys) sep) ≠ "" :=
      goJoin_ne_empty y ys sep (hz y (List.mem_cons_of_mem x (List.mem_cons_self y ys)))
    have hjd : (goJoin (y :: ys) sep).data ≠ [] := fun h => hjoin ((data_eq_nil_iff _).mp h)
    rw [List.getLast?_append_of_ne_nil _ hjd]
    rw [ih y (fun z hz2 => hz z (List.mem_cons_of_mem x hz2))]
    rw [List.getLast_cons (List.cons_ne_nil y ys)]

/-- A join of nonempty trim-stable strings is trim-stable (the ends
are the ends of the first and last elements). -/
theorem goTrim_goJoin (sep : String) (items : List String)
    (h : ∀ x ∈ items, x ≠ "" ∧ goTrim x = x) :
    goTrim (goJoin items sep) = goJoin items sep := by
  cases items with
  | nil => rfl
  | cons x rest =>
    obtain ⟨hx1, hx2⟩ := h x (List.mem_cons_self x rest)
    have hxd : x.data ≠ [] := fun e => hx1 ((data_eq_nil_iff x).mp e)
    refine goTrim_eq_self _ ?_ ?_
    · intro c hc
      rw [goJoin_head_char x rest sep hxd] at hc
      exact goTrim_stable_head x hx2 c hc
    · intro c hc
      rw [goJoin_last_char sep rest x (fun z hz => (h z hz).1)] at hc
      have hmem := List.getLast_mem (l := x :: rest) (fun e => List.noConfusion e)
      exact goTrim_stable_last _ ((h _ hmem).2) c hc

/-- `splitList` undoes the comma join for any safe list (including the
empty one). -/
theorem splitList_goJoin_all (items : List String) (h : listSafe items) :
    splitList (goJoin items ", ") = items := by
  cases items with
  | nil => rfl
  | cons x rest =>
    refine splitList_goJoin (x :: rest) (fun e => List.noConfusion e) ?_
    intro z hz
    obtain ⟨h1, h2, _, h4⟩ := h z hz
    exact ⟨h1, h2, h4⟩

/-- `goSplit` never returns an empty list. -/
theorem goSplit_ne_nil (s : String) (sep : Char) : goSplit s sep ≠ [] := by
  unfold goSplit
  intro h
  rw [List.map_eq_nil_iff] at h
  exact splitCh_ne_nil sep s.data h

/-- Pieces of `goSplit` do not contain the separator. -/
theorem goSplit_mem_free (s : String) (sep : Char) :
    ∀ x ∈ goSplit s sep, x.data.contains sep = false := by
  intro x hx
  unfold goSplit at hx
  rw [List.mem_map] at hx
  obtain ⟨g, hg, he⟩ := hx
  rw [← he]
  exact splitCh_pieces_free sep s.data g hg

/-- `descTailLine` is the identity on already-encoded lines. -/
theorem descTailLine_id (l : String) (h1 : goHasPrefix l " " = true) (h2 : goTrim l ≠ "") :
    descTailLine l = l := by
  unfold descTailLine
  rw [if_neg h2, if_pos h1]

/-- All chunks of the emitted control file are newline-free for
well-formed metadata. -/
theorem controlLines_no_newline (m : Metadata) (b : Nat) (hw : wfMetadata m) :
    ∀ c ∈ controlLines m b, c.data.contains '\n' = false := by
  obtain ⟨h1, h2, h3, h4, h5, h6, h7, h8, h9, hd, l1, l2, l3, l4, l5, l6, l7, l8, l9, hek, hev⟩ := hw
  intro c hc
  unfold controlLines at hc
  rw [List.mem_flatten] at hc
  obtain ⟨g, hg, hcg⟩ := hc
  unfold controlChunkGroups at hg
  have hrel : ∀ (k : String), k.data.contains '\n' = false → ∀ (items : List String),
      listSafe items → g = relLine k items → c.data.contains '\n' = false := by
    intro k hk items hl he
    rw [he, relLine_eq] at hcg
    refine optLine_no_newline k _ hk ?_ c hcg
    exact goJoin_no_newline items ", " (fun x hx => (hl x hx).2.2.1) rfl
  rcases List.mem_append.mp hg with hg1 | hgdesc
  · rcases List.mem_append.mp hg1 with hg2 | hgex
    · simp only [List.mem_cons, List.not_mem_nil, or_false] at hg2
      rcases hg2 with he | he | he | he | he | he | he | he | he | he | he | he | he | he | he |
        he | he | he | he | he
      · exact optLine_no_newline "Package" m.package rfl h1.1 c (he ▸ hcg)
      · exact optLine_no_newline "Version" m.version rfl h2.1 c (he ▸ hcg)
      · exact optLine_no_newline "Architecture" m.architecture rfl h3.1 c (he ▸ hcg)
      · exact optLine_no_newline "Maintainer" m.maintainer rfl h4.1 c (he ▸ hcg)
      · exact optLine_no_newline "Installed-Size" (toString (kbytesOf b)) rfl
          (natRepr_no_newline _) c (he ▸ hcg)
      · exact optLine_no_newline "Section" m.sect rfl h5.1 c (he ▸ hcg)
      · exact optLine_no_newline "Priority" m.priority rfl h6.1 c (he ▸ hcg)
      · exact optLine_no_newline "Homepage" m.homepage rfl h7.1 c (he ▸ hcg)
      · rw [he, essential_group_eq] at hcg
        refine optLine_no_newline "Essential" _ rfl ?_ c hcg
        cases m.essential <;> rfl
      · exact hrel "Depends" rfl _ l1 he
      · exact hrel "Pre-Depends" rfl _ l2 he
      · exact hrel "Recommends" rfl _ l3 he
      · exact hrel "Suggests" rfl _ l4 he
      · exact hrel "Enhances" rfl _ l5 he
      · exact hrel "Conflicts" rfl _ l6 he
      · exact hrel "Breaks" rfl _ l7 he
      · exact hrel "Replaces" rfl _ l8 he
      · exact hrel "Provides" rfl _ l9 he
      · exact optLine_no_newline "Built-Using" m.builtUsing rfl h8.1 c (he ▸ hcg)
      · exact optLine_no_newline "Source" m.source rfl h9.1 c (he ▸ hcg)
    · rw [List.mem_map] at hgex
      obtain ⟨kv, hkv, he⟩ := hgex
      obtain ⟨_, _, _, hkn, _, _, _, hvn, _⟩ := hev kv hkv
      exact optLine_no_newline _ _ hkn hvn c (he ▸ hcg)
  · rw [List.mem_singleton] at hgdesc
    rw [hgdesc] at hcg
    unfold descriptionLines at hcg
    split at hcg
    · cases hcg
    · rcases hd with hd0 | hdr
      · rename_i hne
        exact absurd hd0 hne
      · cases hsp : goSplit m.description '\n' with
        | nil => exact absurd hsp (goSplit_ne_nil _ _)
        | cons l0 rest =>
          rw [hsp] at hcg
          rw [hsp] at hdr
          obtain ⟨hl0ne, hl0t, hrest⟩ := hdr
          rcases List.mem_append.mp hcg with hc1 | hc2
          · refine optLine_no_newline "Description" l0 rfl ?_ c hc1
            exact goSplit_mem_free m.description '\n' l0 (hsp ▸ List.mem_cons_self l0 rest)
          · rw [List.mem_map] at hc2
            obtain ⟨l, hl, he⟩ := hc2
            obtain ⟨hp, ht, _⟩ := hrest l hl
            rw [← he, descTailLine_id l hp ht]
            refine goSplit_mem_free m.description '\n' l ?_
            rw [hsp]
            exact List.mem_cons_of_mem l0 hl

/-- Strings with equal character data are equal. -/
theorem strEqOfData (a b : String) (h : a.data = b.data) : a = b := by
  cases a
  cases b
  exact congrArg String.mk h

/-- String concatenation is associative. -/
theorem strAppend_assoc (a b c : String) : (a ++ b) ++ c = a ++ (b ++ c) := by
  refine strEqOfData _ _ ?_
  rw [String.data_append, String.data_append, String.data_append, String.data_append,
    List.append_assoc]

/-- Decimal digit characters are never Go whitespace. -/
theorem digitChar_lt_ten_not_space : ∀ m, m < 10 → isGoSpace (Nat.digitChar m) = false := by
  decide

/-- `Nat.toDigitsCore` at base 10 introduces no whitespace. -/
theorem toDigitsCore_not_space (f : Nat) :
    ∀ (n : Nat) (ds : List Char), (∀ c ∈ ds, isGoSpace c = false) →
      ∀ c ∈ Nat.toDigitsCore 10 f n ds, isGoSpace c = false := by
  induction f with
  | zero =>
    intro n ds h c hc
    exact h c hc
  | succ f ih =>
    intro n ds h c hc
    have hmod : n % 10 < 10 := Nat.mod_lt _ (by norm_num)
    rw [Nat.toDigitsCore] at hc
    split at hc
    · rcases List.mem_cons.mp hc with h1 | h1
      · rw [h1]
        exact digitChar_lt_ten_not_space _ hmod
      · exact h c h1
    · refine ih _ _ ?_ c hc
      intro x hx
      rcases List.mem_cons.mp hx with h1 | h1
      · rw [h1]
        exact digitChar_lt_ten_not_space _ hmod
      · exact h x h1

/-- The decimal string of a natural number is `TrimSpace`-stable. -/
theorem natRepr_trim (n : Nat) : goTrim (toString n) = toString n := by
  have hall : ∀ c ∈ (toString n).data, isGoSpace c = false := by
    intro c hc
    exact toDigitsCore_not_space (n + 1) n [] (by intro x hx; cases hx) c hc
  refine goTrim_eq_self _ ?_ ?_
  · intro c hc
    exact hall c (List.mem_of_mem_head? hc)
  · intro c hc
    rw [← List.head?_reverse] at hc
    exact hall c (List.mem_reverse.mp (List.mem_of_mem_head? hc))

/-- The last character of a `TrimRight`-stable list is not
whitespace. -/
theorem trimRightCh_stable_last (l : List Char) (h : trimRightCh l = l) :
    ∀ c, l.getLast? = some c → isGoSpace c = false := by
  have hrev : l.reverse.dropWhile isGoSpace = l.reverse := by
    have h2 := congrArg List.reverse h
    unfold trimRightCh at h2
    rw [List.reverse_reverse] at h2
    exact h2
  intro c hc
  refine dropWhile_eq_self_head isGoSpace l.reverse hrev c ?_
  rw [List.head?_reverse]
  exact hc

/-- The parser accumulates continuation lines exactly as a
newline-join. -/
theorem foldl_nl_goJoin : ∀ (rest : List String) (l0 : String),
    rest.foldl (fun v l => v ++ "\n" ++ l) l0 = goJoin (l0 :: rest) "\n" := by
  intro rest
  induction rest with
  | nil => intro l0; rfl
  | cons l ls ih =>
    intro l0
    rw [List.foldl_cons, ih]
    cases ls with
    | nil => rfl
    | cons y ys =>
      show goJoin ((l0 ++ "\n" ++ l) :: y :: ys) "\n" = goJoin (l0 :: l :: y :: ys) "\n"
      show (l0 ++ "\n" ++ l) ++ "\n" ++ goJoin (y :: ys) "\n"
        = l0 ++ "\n" ++ goJoin (l :: y :: ys) "\n"
      show (l0 ++ "\n" ++ l) ++ "\n" ++ goJoin (y :: ys) "\n"
        = l0 ++ "\n" ++ (l ++ "\n" ++ goJoin (y :: ys) "\n")
      simp only [strAppend_assoc]

/-- The data of a newline-join of split pieces. -/
theorem goJoin_nl_data : ∀ (ps : List (List Char)),
    (goJoin (ps.map String.mk) "\n").data = joinChSep '\n' ps := by
  intro ps
  induction ps with
  | nil => rfl
  | cons g gs ih =>
    cases gs with
    | nil => rfl
    | cons g0 gs0 =>
      show (String.mk g ++ "\n" ++ goJoin ((g0 :: gs0).map String.mk) "\n").data
        = joinChSep '\n' (g :: g0 :: gs0)
      rw [String.data_append, String.data_append, joinChSep_cons, ih, List.append_assoc]
      rfl

/-- Joining the newline split gives back the string. -/
theorem goJoin_goSplit_nl (s : String) : goJoin (goSplit s '\n') "\n" = s := by
  refine strEqOfData _ _ ?_
  unfold goSplit
  rw [goJoin_nl_data, joinChSep_splitCh]

/-- An emitted description block is `TrimSpace`-stable. -/
theorem goTrim_desc (d l0 : String) (rest : List String)
    (hsp : goSplit d '\n' = l0 :: rest)
    (h0 : l0 ≠ "") (h0t : goTrim l0 = l0)
    (hr : ∀ l ∈ rest, goTrim l ≠ "" ∧ trimRightCh l.data = l.data) :
    goTrim d = d := by
  have hjoin : goJoin (l0 :: rest) "\n" = d := by rw [← hsp, goJoin_goSplit_nl]
  have hl0d : l0.data ≠ [] := fun e => h0 ((data_eq_nil_iff l0).mp e)
  have hne : ∀ z ∈ l0 :: rest, z ≠ "" := by
    intro z hz
    rcases List.mem_cons.mp hz with he | he
    · rw [he]; exact h0
    · intro e
      exact (hr z he).1 (by rw [e]; rfl)
  refine goTrim_eq_self d ?_ ?_
  · intro c hc
    rw [← hjoin, goJoin_head_char l0 rest "\n" hl0d] at hc
    exact goTrim_stable_head l0 h0t c hc
  · intro c hc
    rw [← hjoin, goJoin_last_char "\n" rest l0 hne] at hc
    have hmem := List.getLast_mem (l := l0 :: rest) (fun h => List.noConfusion h)
    rcases List.mem_cons.mp hmem with he | he
    · rw [he] at hc
      exact goTrim_stable_last l0 h0t c hc
    · exact trimRightCh_stable_last _ ((hr _ he).2) c hc

/-- Unknown keys land in `ExtraFields`. -/
theorem flushInto_unknown (k v : String) (m : Metadata)
    (h0 : k ≠ "") (h : k ∉ knownFieldKeys) :
    flushInto k v m = { m with extraFields := mapInsert m.extraFields k (goTrim v) } := by
  simp only [knownFieldKeys, List.mem_cons, List.not_mem_nil, or_false, not_or] at h
  obtain ⟨n1, n2, n3, n4, n5, n6, n7, n8, n9, n10, n11, n12, n13, n14, n15, n16, n17, n18,
    n19, n20, n21⟩ := h
  unfold flushInto
  rw [if_neg h0, if_neg n1, if_neg n2, if_neg n3, if_neg n4, if_neg n5, if_neg n6, if_neg n7,
    if_neg n8, if_neg n9, if_neg n10, if_neg n11, if_neg n12, if_neg n13, if_neg n14,
    if_neg n15, if_neg n16, if_neg n17, if_neg n18, if_neg n19, if_neg n20, if_neg n21]

/-- Inserting a fresh key appends the pair. -/
theorem mapInsert_fresh (l : List (String × String)) (k v : String)
    (h : ∀ kv ∈ l, kv.1 ≠ k) : mapInsert l k v = l ++ [(k, v)] := by
  induction l with
  | nil => rfl
  | cons kv t ih =>
    show mapInsert (kv :: t) k v = kv :: t ++ [(k, v)]
    cases kv with
    | mk k0 v0 =>
      unfold mapInsert
      rw [if_neg (h (k0, v0) (List.mem_cons_self _ _)),
        ih (fun z hz => h z (List.mem_cons_of_mem _ hz))]
      rfl

/-- Flushing a sequence of fresh user-defined fields appends them to
`ExtraFields` in order. -/
theorem flushPairs_fresh_extras : ∀ (ex : List (String × String)) (M : Metadata),
    ((M.extraFields.map Prod.fst ++ ex.map Prod.fst).Nodup) →
    (∀ kv ∈ ex, kv.1 ∉ knownFieldKeys ∧ kv.1 ≠ "" ∧ goTrim kv.2 = kv.2) →
    flushPairs ex M = { M with extraFields := M.extraFields ++ ex } := by
  intro ex
  induction ex with
  | nil =>
    intro M _ _
    show M = { M with extraFields := M.extraFields ++ [] }
    rw [List.append_nil]
  | cons kv t ih =>
    intro M hn hs
    obtain ⟨hk1, hk2, hk3⟩ := hs kv (List.mem_cons_self _ _)
    have hfresh : ∀ z ∈ M.extraFields, z.1 ≠ kv.1 := by
      intro z hz he
      rw [List.map_cons] at hn
      have hd := (List.nodup_append.mp hn).2.2
      refine hd (List.mem_map_of_mem Prod.fst hz) ?_
      rw [he]
      exact List.mem_cons_self _ _
    have hstep : flushInto kv.1 kv.2 M
        = { M with extraFields := M.extraFields ++ [kv] } := by
      rw [flushInto_unknown kv.1 kv.2 M hk2 hk1, hk3,
        mapInsert_fresh M.extraFields kv.1 kv.2 hfresh]
    show flushPairs t (flushInto kv.1 kv.2 M) = { M with extraFields := M.extraFields ++ kv :: t }
    rw [hstep, ih { M with extraFields := M.extraFields ++ [kv] } ?hn ?hs]
    · show ({ M with extraFields := (M.extraFields ++ [kv]) ++ t } : Metadata)
        = { M with extraFields := M.extraFields ++ kv :: t }
      rw [List.append_assoc, List.singleton_append]
    case hn =>
      show ((M.extraFields ++ [kv]).map Prod.fst ++ t.map Prod.fst).Nodup
      rw [List.map_append, List.append_assoc]
      rw [List.map_cons] at hn
      exact hn
    case hs =>
      exact fun z hz => hs z (List.mem_cons_of_mem _ hz)

/-- The user-defined field groups advance the parser by `afterFields`
of the pair list. -/
theorem fold_extras : ∀ (ex : List (String × String)) (st : PState) (rest : List String),
    (∀ kv ∈ ex, extraPairSafe kv) →
    List.foldl stepLine st ((ex.map (fun kv => optLine kv.1 kv.2)).flatten ++ rest)
      = List.foldl stepLine (afterFields ex st) rest := by
  intro ex
  induction ex with
  | nil => intro st rest _; rfl
  | cons kv t ih =>
    intro st rest hs
    obtain ⟨_, hk2, hk3, _, hk5, hk6, hv1, _, hv3⟩ := hs kv (List.mem_cons_self _ _)
    have hd : kv.1.data ≠ [] := fun e => hk2 ((data_eq_nil_iff kv.1).mp e)
    have hsp : goHasPrefix (kv.1 ++ ": " ++ kv.2) " " = false := by
      have h1 : goHasPrefix (kv.1 ++ (": " ++ kv.2)) " " = goHasPrefix kv.1 " " :=
        goHasPrefix_char_append ' ' kv.1 (": " ++ kv.2) hd
      rw [strAppend_assoc, h1]
      exact hk5
    have htb : goHasPrefix (kv.1 ++ ": " ++ kv.2) "\t" = false := by
      have h1 : goHasPrefix (kv.1 ++ (": " ++ kv.2)) "\t" = goHasPrefix kv.1 "\t" :=
        goHasPrefix_char_append '\t' kv.1 (": " ++ kv.2) hd
      rw [strAppend_assoc, h1]
      exact hk6
    rw [List.map_cons, List.flatten_cons, List.append_assoc,
      fold_optLine kv.1 kv.2 _ st hk3 hsp htb hv3,
      ih _ rest (fun z hz => hs z (List.mem_cons_of_mem _ hz))]
    have hop : optPair kv.1 kv.2 = [kv] := by
      unfold optPair
      rw [if_neg hv1]
    rw [hop]
    rfl


/-- `parseLines` is the final flush of the line fold. -/
theorem parseLines_eq (ls : List String) (m : Metadata) :
    parseLines ls m = flushFinal (ls.foldl stepLine ⟨"", "", m⟩) := rfl

/-- Folding an emitted `Description` block: the synopsis line makes
the field pending, continuation lines accumulate, the final empty
line is ignored. -/
theorem fold_desc_block (l0 : String) (rest : List String) (st : PState)
    (h0 : l0 ≠ "") (h0t : goTrim l0 = l0)
    (hr : ∀ l ∈ rest, goHasPrefix l " " = true) :
    List.foldl stepLine st ((optLine "Description" l0 ++ rest) ++ [""])
      = ⟨"Description", List.foldl (fun v l => v ++ "\n" ++ l) l0 rest, flushFinal st⟩ := by
  have hopt : optLine "Description" l0 = ["Description" ++ ": " ++ l0] := by
    unfold optLine
    rw [if_neg h0]
  rw [hopt, List.append_assoc, List.singleton_append, List.foldl_cons,
    step_field_line "Description" l0 st rfl rfl rfl h0t, List.foldl_append,
    fold_cont_lines rest _ hr]
  rfl

/-- Parsing the emitted control file of well-formed metadata recovers
the metadata exactly. -/
theorem parse_generate (m : Metadata) (b : Nat) (hw : wfMetadata m) :
    parseLines (goSplit (generateControlFile m b) '\n') Metadata.empty = m := by
  have hnl := controlLines_no_newline m b hw
  obtain ⟨hpk, hvr, har, hmt, hsc, hpi, hho, hbu, hso, hds, hd1, hd2, hd3, hd4, hd5,
    hd6, hd7, hd8, hd9, hek, hev⟩ := hw
  cases m with
  | mk pk vr ar mt ds sc pi ho es d1 d2 d3 d4 d5 d6 d7 d8 d9 bu so ex =>
  unfold generateControlFile
  rw [goSplit_concatLines _ hnl, parseLines_eq]
  simp only [controlLines, controlChunkGroups, essential_group_eq, relLine_eq,
    List.flatten_append, List.flatten_cons, List.flatten_nil, List.append_assoc,
    List.append_nil, List.nil_append]
  rw [fold_optLine "Package" pk _ _ rfl rfl rfl hpk.2]
  rw [fold_optLine "Version" vr _ _ rfl rfl rfl hvr.2]
  rw [fold_optLine "Architecture" ar _ _ rfl rfl rfl har.2]
  rw [fold_optLine "Maintainer" mt _ _ rfl rfl rfl hmt.2]
  rw [fold_optLine "Installed-Size" (toString (kbytesOf b)) _ _ rfl rfl rfl (natRepr_trim (kbytesOf b))]
  rw [fold_optLine "Section" sc _ _ rfl rfl rfl hsc.2]
  rw [fold_optLine "Priority" pi _ _ rfl rfl rfl hpi.2]
  rw [fold_optLine "Homepage" ho _ _ rfl rfl rfl hho.2]
  rw [fold_optLine "Essential" (if es then "yes" else "") _ _ rfl rfl rfl (by cases es <;> rfl)]
  rw [fold_optLine "Depends" (goJoin d1 ", ") _ _ rfl rfl rfl (goTrim_goJoin ", " d1 (fun x hx => ⟨(hd1 x hx).1, (hd1 x hx).2.2.2⟩))]
  rw [fold_optLine "Pre-Depends" (goJoin d2 ", ") _ _ rfl rfl rfl (goTrim_goJoin ", " d2 (fun x hx => ⟨(hd2 x hx).1, (hd2 x hx).2.2.2⟩))]
  rw [fold_optLine "Recommends" (goJoin d3 ", ") _ _ rfl rfl rfl (goTrim_goJoin ", " d3 (fun x hx => ⟨(hd3 x hx).1, (hd3 x hx).2.2.2⟩))]
  rw [fold_optLine "Suggests" (goJoin d4 ", ") _ _ rfl rfl rfl (goTrim_goJoin ", " d4 (fun x hx => ⟨(hd4 x hx).1, (hd4 x hx).2.2.2⟩))]
  rw [fold_optLine "Enhances" (goJoin d5 ", ") _ _ rfl rfl rfl (goTrim_goJoin ", " d5 (fun x hx => ⟨(hd5 x hx).1, (hd5 x hx).2.2.2⟩))]
  rw [fold_optLine "Conflicts" (goJoin d6 ", ") _ _ rfl rfl rfl (goTrim_goJoin ", " d6 (fun x hx => ⟨(hd6 x hx).1, (hd6 x hx).2.2.2⟩))]
  rw [fold_optLine "Breaks" (goJoin d7 ", ") _ _ rfl rfl rfl (goTrim_goJoin ", " d7 (fun x hx => ⟨(hd7 x hx).1, (hd7 x hx).2.2.2⟩))]
  rw [fold_optLine "Replaces" (goJoin d8 ", ") _ _ rfl rfl rfl (goTrim_goJoin ", " d8 (fun x hx => ⟨(hd8 x hx).1, (hd8 x hx).2.2.2⟩))]
  rw [fold_optLine "Provides" (goJoin d9 ", ") _ _ rfl rfl rfl (goTrim_goJoin ", " d9 (fun x hx => ⟨(hd9 x hx).1, (hd9 x hx).2.2.2⟩))]
  rw [fold_optLine "Built-Using" bu _ _ rfl rfl rfl hbu.2]
  rw [fold_optLine "Source" so _ _ rfl rfl rfl hso.2]
  rw [fold_extras ex _ _ hev]
  have e1 : flushPairs (optPair "Package" pk) Metadata.empty
      = (Metadata.mk pk "" "" "" "" "" "" "" false [] [] [] [] [] [] [] [] [] "" "" []) := by
    rw [flushPairs_optPair "Package" pk Metadata.empty rfl]
    show Metadata.mk (goTrim pk) "" "" "" "" "" "" "" false [] [] [] [] [] [] [] [] [] "" "" [] = (Metadata.mk pk "" "" "" "" "" "" "" false [] [] [] [] [] [] [] [] [] "" "" [])
    rw [hpk.2]
  have e2 : flushPairs (optPair "Version" vr) (Metadata.mk pk "" "" "" "" "" "" "" false [] [] [] [] [] [] [] [] [] "" "" [])
      = (Metadata.mk pk vr "" "" "" "" "" "" false [] [] [] [] [] [] [] [] [] "" "" []) := by
    rw [flushPairs_optPair "Version" vr (Metadata.mk pk "" "" "" "" "" "" "" false [] [] [] [] [] [] [] [] [] "" "" []) rfl]
    show Metadata.mk pk (goTrim vr) "" "" "" "" "" "" false [] [] [] [] [] [] [] [] [] "" "" [] = (Metadata.mk pk vr "" "" "" "" "" "" false [] [] [] [] [] [] [] [] [] "" "" [])
    rw [hvr.2]
  have e3 : flushPairs (optPair "Architecture" ar) (Metadata.mk pk vr "" "" "" "" "" "" false [] [] [] [] [] [] [] [] [] "" "" [])
      = (Metadata.mk pk vr ar "" "" "" "" "" false [] [] [] [] [] [] [] [] [] "" "" []) := by
    rw [flushPairs_optPair "Architecture" ar (Metadata.mk pk vr "" "" "" "" "" "" false [] [] [] [] [] [] [] [] [] "" "" []) rfl]
    show Metadata.mk pk vr (goTrim ar) "" "" "" "" "" false [] [] [] [] [] [] [] [] [] "" "" [] = (Metadata.mk pk vr ar "" "" "" "" "" false [] [] [] [] [] [] [] [] [] "" "" [])
    rw [har.2]
  have e4 : flushPairs (optPair "Maintainer" mt) (Metadata.mk pk vr ar "" "" "" "" "" false [] [] [] [] [] [] [] [] [] "" "" [])
      = (Metadata.mk pk vr ar mt "" "" "" "" false [] [] [] [] [] [] [] [] [] "" "" []) := by
    rw [flushPairs_optPair "Maintainer" mt (Metadata.mk pk vr ar "" "" "" "" "" false [] [] [] [] [] [] [] [] [] "" "" []) rfl]
    show Metadata.mk pk vr ar (goTrim mt) "" "" "" "" false [] [] [] [] [] [] [] [] [] "" "" [] = (Metadata.mk pk vr ar mt "" "" "" "" false [] [] [] [] [] [] [] [] [] "" "" [])
    rw [hmt.2]
  have e5 : flushPairs (optPair "Installed-Size" (toString (kbytesOf b))) (Metadata.mk pk vr ar mt "" "" "" "" false [] [] [] [] [] [] [] [] [] "" "" [])
      = (Metadata.mk pk vr ar mt "" "" "" "" false [] [] [] [] [] [] [] [] [] "" "" []) := by
    rw [flushPairs_optPair "Installed-Size" (toString (kbytesOf b)) (Metadata.mk pk vr ar mt "" "" "" "" false [] [] [] [] [] [] [] [] [] "" "" []) rfl]
    rfl
  have e6 : flushPairs (optPair "Section" sc) (Metadata.mk pk vr ar mt "" "" "" "" false [] [] [] [] [] [] [] [] [] "" "" [])
      = (Metadata.mk pk vr ar mt "" sc "" "" false [] [] [] [] [] [] [] [] [] "" "" []) := by
    rw [flushPairs_optPair "Section" sc (Metadata.mk pk vr ar mt "" "" "" "" false [] [] [] [] [] [] [] [] [] "" "" []) rfl]
    show Metadata.mk pk vr ar mt "" (goTrim sc) "" "" false [] [] [] [] [] [] [] [] [] "" "" [] = (Metadata.mk pk vr ar mt "" sc "" "" false [] [] [] [] [] [] [] [] [] "" "" [])
    rw [hsc.2]
  have e7 : flushPairs (optPair "Priority" pi) (Metadata.mk pk vr ar mt "" sc "" "" false [] [] [] [] [] [] [] [] [] "" "" [])
      = (Metadata.mk pk vr ar mt "" sc pi "" false [] [] [] [] [] [] [] [] [] "" "" []) := by
    rw [flushPairs_optPair "Priority" pi (Metadata.mk pk vr ar mt "" sc "" "" false [] [] [] [] [] [] [] [] [] "" "" []) rfl]
    show Metadata.mk pk vr ar mt "" sc (goTrim pi) "" false [] [] [] [] [] [] [] [] [] "" "" [] = (Metadata.mk pk vr ar mt "" sc pi "" false [] [] [] [] [] [] [] [] [] "" "" [])
    rw [hpi.2]
  have e8 : flushPairs (optPair "Homepage" ho) (Metadata.mk pk vr ar mt "" sc pi "" false [] [] [] [] [] [] [] [] [] "" "" [])
      = (Metadata.mk pk vr ar mt "" sc pi ho false [] [] [] [] [] [] [] [] [] "" "" []) := by
    rw [flushPairs_optPair "Homepage" ho (Metadata.mk pk vr ar mt "" sc pi "" false [] [] [] [] [] [] [] [] [] "" "" []) rfl]
    show Metadata.mk pk vr ar mt "" sc pi (goTrim ho) false [] [] [] [] [] [] [] [] [] "" "" [] = (Metadata.mk pk vr ar mt "" sc pi ho false [] [] [] [] [] [] [] [] [] "" "" [])
    rw [hho.2]
  have e9 : flushPairs (optPair "Essential" (if es then "yes" else "")) (Metadata.mk pk vr ar mt "" sc pi ho false [] [] [] [] [] [] [] [] [] "" "" [])
      = (Metadata.mk pk vr ar mt "" sc pi ho es [] [] [] [] [] [] [] [] [] "" "" []) := by
    rw [flushPairs_optPair "Essential" (if es then "yes" else "") (Metadata.mk pk vr ar mt "" sc pi ho false [] [] [] [] [] [] [] [] [] "" "" []) rfl]
    cases es <;> rfl
  have e10 : flushPairs (optPair "Depends" (goJoin d1 ", ")) (Metadata.mk pk vr ar mt "" sc pi ho es [] [] [] [] [] [] [] [] [] "" "" [])
      = (Metadata.mk pk vr ar mt "" sc pi ho es d1 [] [] [] [] [] [] [] [] "" "" []) := by
    rw [flushPairs_optPair "Depends" (goJoin d1 ", ") (Metadata.mk pk vr ar mt "" sc pi ho es [] [] [] [] [] [] [] [] [] "" "" []) rfl]
    show Metadata.mk pk vr ar mt "" sc pi ho es (splitList (goTrim (goJoin d1 ", "))) [] [] [] [] [] [] [] [] "" "" [] = (Metadata.mk pk vr ar mt "" sc pi ho es d1 [] [] [] [] [] [] [] [] "" "" [])
    rw [goTrim_goJoin ", " d1 (fun x hx => ⟨(hd1 x hx).1, (hd1 x hx).2.2.2⟩),
      splitList_goJoin_all d1 hd1]
  have e11 : flushPairs (optPair "Pre-Depends" (goJoin d2 ", ")) (Metadata.mk pk vr ar mt "" sc pi ho es d1 [] [] [] [] [] [] [] [] "" "" [])
      = (Metadata.mk pk vr ar mt "" sc pi ho es d1 d2 [] [] [] [] [] [] [] "" "" []) := by
    rw [flushPairs_optPair "Pre-Depends" (goJoin d2 ", ") (Metadata.mk pk vr ar mt "" sc pi ho es d1 [] [] [] [] [] [] [] [] "" "" []) rfl]
    show Metadata.mk pk vr ar mt "" sc pi ho es d1 (splitList (goTrim (goJoin d2 ", "))) [] [] [] [] [] [] [] "" "" [] = (Metadata.mk pk vr ar mt "" sc pi ho es d1 d2 [] [] [] [] [] [] [] "" "" [])
    rw [goTrim_goJoin ", " d2 (fun x hx => ⟨(hd2 x hx).1, (hd2 x hx).2.2.2⟩),
      splitList_goJoin_all d2 hd2]
  have e12 : flushPairs (optPair "Recommends" (goJoin d3 ", ")) (Metadata.mk pk vr ar mt "" sc pi ho es d1 d2 [] [] [] [] [] [] [] "" "" [])
      = (Metadata.mk pk vr ar mt "" sc pi ho es d1 d2 d3 [] [] [] [] [] [] "" "" []) := by
    rw [flushPairs_optPair "Recommends" (goJoin d3 ", ") (Metadata.mk pk vr ar mt "" sc pi ho es d1 d2 [] [] [] [] [] [] [] "" "" []) rfl]
    show Metadata.mk pk vr ar mt "" sc pi ho es d1 d2 (splitList (goTrim (goJoin d3 ", "))) [] [] [] [] [] [] "" "" [] = (Metadata.mk pk vr ar mt "" sc pi ho es d1 d2 d3 [] [] [] [] [] [] "" "" [])
    rw [goTrim_goJoin ", " d3 (fun x hx => ⟨(hd3 x hx).1, (hd3 x hx).2.2.2⟩),
      splitList_goJoin_all d3 hd3]
  have e13 : flushPairs (optPair "Suggests" (goJoin d4 ", ")) (Metadata.mk pk vr ar mt "" sc pi ho es d1 d2 d3 [] [] [] [] [] [] "" "" [])
      = (Metadata.mk pk vr ar mt "" sc pi ho es d1 d2 d3 d4 [] [] [] [] [] "" "" []) := by
    rw [flushPairs_optPair "Suggests" (goJoin d4 ", ") (Metadata.mk pk vr ar mt "" sc pi ho es d1 d2 d3 [] [] [] [] [] [] "" "" []) rfl]
    show Metadata.mk pk vr ar mt "" sc pi ho es d1 d2 d3 (splitList (goTrim (goJoin d4 ", "))) [] [] [] [] [] "" "" [] = (Metadata.mk pk vr ar mt "" sc pi ho es d1 d2 d3 d4 [] [] [] [] [] "" "" [])
    rw [goTrim_goJoin ", " d4 (fun x hx => ⟨(hd4 x hx).1, (hd4 x hx).2.2.2⟩),
      splitList_goJoin_all d4 hd4]
  have e14 : flushPairs (optPair "Enhances" (goJoin d5 ", ")) (Metadata.mk pk vr ar mt "" sc pi ho es d1 d2 d3 d4 [] [] [] [] [] "" "" [])
      = (Metadata.mk pk vr ar mt "" sc pi ho es d1 d2 d3 d4 d5 [] [] [] [] "" "" []) := by
    rw [flushPairs_optPair "Enhances" (goJoin d5 ", ") (Metadata.mk pk vr ar mt "" sc pi ho es d1 d2 d3 d4 [] [] [] [] [] "" "" []) rfl]
    show Metadata.mk pk vr ar mt "" sc pi ho es d1 d2 d3 d4 (splitList (goTrim (goJoin d5 ", "))) [] [] [] [] "" "" [] = (Metadata.mk pk vr ar mt "" sc pi ho es d1 d2 d3 d4 d5 [] [] [] [] "" "" [])
    rw [goTrim_goJoin ", " d5 (fun x hx => ⟨(hd5 x hx).1, (hd5 x hx).2.2.2⟩),
      splitList_goJoin_all d5 hd5]
  have e15 : flushPairs (optPair "Conflicts" (goJoin d6 ", ")) (Metadata.mk pk vr ar mt "" sc pi ho es d1 d2 d3 d4 d5 [] [] [] [] "" "" [])
      = (Metadata.mk pk vr ar mt "" sc pi ho es d1 d2 d3 d4 d5 d6 [] [] [] "" "" []) := by
    rw [flushPairs_optPair "Conflicts" (goJoin d6 ", ") (Metadata.mk pk vr ar mt "" sc pi ho es d1 d2 d3 d4 d5 [] [] [] [] "" "" []) rfl]
    show Metadata.mk pk vr ar mt "" sc pi ho es d1 d2 d3 d4 d5 (splitList (goTrim (goJoin d6 ", "))) [] [] [] "" "" [] = (Metadata.mk pk vr ar mt "" sc pi ho es d1 d2 d3 d4 d5 d6 [] [] [] "" "" [])
    rw [goTrim_goJoin ", " d6 (fun x hx => ⟨(hd6 x hx).1, (hd6 x hx).2.2.2⟩),
      splitList_goJoin_all d6 hd6]
  have e16 : flushPairs (optPair "Breaks" (goJoin d7 ", ")) (Metadata.mk pk vr ar mt "" sc pi ho es d1 d2 d3 d4 d5 d6 [] [] [] "" "" [])
      = (Metadata.mk pk vr ar mt "" sc pi ho es d1 d2 d3 d4 d5 d6 d7 [] [] "" "" []) := by
    rw [flushPairs_optPair "Breaks" (goJoin d7 ", ") (Metadata.mk pk vr ar mt "" sc pi ho es d1 d2 d3 d4 d5 d6 [] [] [] "" "" []) rfl]
    show Metadata.mk pk vr ar mt "" sc pi ho es d1 d2 d3 d4 d5 d6 (splitList (goTrim (goJoin d7 ", "))) [] [] "" "" [] = (Metadata.mk pk vr ar mt "" sc pi ho es d1 d2 d3 d4 d5 d6 d7 [] [] "" "" [])
    rw [goTrim_goJoin ", " d7 (fun x hx => ⟨(hd7 x hx).1, (hd7 x hx).2.2.2⟩),
      splitList_goJoin_all d7 hd7]
  have e17 : flushPairs (optPair "Replaces" (goJoin d8 ", ")) (Metadata.mk pk vr ar mt "" sc pi ho es d1 d2 d3 d4 d5 d6 d7 [] [] "" "" [])
      = (Metadata.mk pk vr ar mt "" sc pi ho es d1 d2 d3 d4 d5 d6 d7 d8 [] "" "" []) := by
    rw [flushPairs_optPair "Replaces" (goJoin d8 ", ") (Metadata.mk pk vr ar mt "" sc pi ho es d1 d2 d3 d4 d5 d6 d7 [] [] "" "" []) rfl]
    show Metadata.mk pk vr ar mt "" sc pi ho es d1 d2 d3 d4 d5 d6 d7 (splitList (goTrim (goJoin d8 ", "))) [] "" "" [] = (Metadata.mk pk vr ar mt "" sc pi ho es d1 d2 d3 d4 d5 d6 d7 d8 [] "" "" [])
    rw [goTrim_goJoin ", " d8 (fun x hx => ⟨(hd8 x hx).1, (hd8 x hx).2.2.2⟩),
      splitList_goJoin_all d8 hd8]
  have e18 : flushPairs (optPair "Provides" (goJoin d9 ", ")) (Metadata.mk pk vr ar mt "" sc pi ho es d1 d2 d3 d4 d5 d6 d7 d8 [] "" "" [])
      = (Metadata.mk pk vr ar mt "" sc pi ho es d1 d2 d3 d4 d5 d6 d7 d8 d9 "" "" []) := by
    rw [flushPairs_optPair "Provides" (goJoin d9 ", ") (Metadata.mk pk vr ar mt "" sc pi ho es d1 d2 d3 d4 d5 d6 d7 d8 [] "" "" []) rfl]
    show Metadata.mk pk vr ar mt "" sc pi ho es d1 d2 d3 d4 d5 d6 d7 d8 (splitList (goTrim (goJoin d9 ", "))) "" "" [] = (Metadata.mk pk vr ar mt "" sc pi ho es d1 d2 d3 d4 d5 d6 d7 d8 d9 "" "" [])
    rw [goTrim_goJoin ", " d9 (fun x hx => ⟨(hd9 x hx).1, (hd9 x hx).2.2.2⟩),
      splitList_goJoin_all d9 hd9]
  have e19 : flushPairs (optPair "Built-Using" bu) (Metadata.mk pk vr ar mt "" sc pi ho es d1 d2 d3 d4 d5 d6 d7 d8 d9 "" "" [])
      = (Metadata.mk pk vr ar mt "" sc pi ho es d1 d2 d3 d4 d5 d6 d7 d8 d9 bu "" []) := by
    rw [flushPairs_optPair "Built-Using" bu (Metadata.mk pk vr ar mt "" sc pi ho es d1 d2 d3 d4 d5 d6 d7 d8 d9 "" "" []) rfl]
    show Metadata.mk pk vr ar mt "" sc pi ho es d1 d2 d3 d4 d5 d6 d7 d8 d9 (goTrim bu) "" [] = (Metadata.mk pk vr ar mt "" sc pi ho es d1 d2 d3 d4 d5 d6 d7 d8 d9 bu "" [])
    rw [hbu.2]
  have e20 : flushPairs (optPair "Source" so) (Metadata.mk pk vr ar mt "" sc pi ho es d1 d2 d3 d4 d5 d6 d7 d8 d9 bu "" [])
      = (Metadata.mk pk vr ar mt "" sc pi ho es d1 d2 d3 d4 d5 d6 d7 d8 d9 bu so []) := by
    rw [flushPairs_optPair "Source" so (Metadata.mk pk vr ar mt "" sc pi ho es d1 d2 d3 d4 d5 d6 d7 d8 d9 bu "" []) rfl]
    show Metadata.mk pk vr ar mt "" sc pi ho es d1 d2 d3 d4 d5 d6 d7 d8 d9 bu (goTrim so) [] = (Metadata.mk pk vr ar mt "" sc pi ho es d1 d2 d3 d4 d5 d6 d7 d8 d9 bu so [])
    rw [hso.2]
  have e21 : flushPairs ex (Metadata.mk pk vr ar mt "" sc pi ho es d1 d2 d3 d4 d5 d6 d7 d8 d9 bu so []) = (Metadata.mk pk vr ar mt "" sc pi ho es d1 d2 d3 d4 d5 d6 d7 d8 d9 bu so ex) := by
    have h := flushPairs_fresh_extras ex (Metadata.mk pk vr ar mt "" sc pi ho es d1 d2 d3 d4 d5 d6 d7 d8 d9 bu so []) (by exact hek)
      (fun kv hkv => ⟨(hev kv hkv).1, (hev kv hkv).2.1, (hev kv hkv).2.2.2.2.2.2.2.2⟩)
    rw [h]
    rfl
  have hst0 : flushFinal (⟨"", "", Metadata.empty⟩ : PState) = Metadata.empty := rfl
  have hfold : ∀ S : PState, List.foldl stepLine S ([] ++ [""]) = S := fun S => rfl
  rcases hds with hde | hdr
  · subst hde
    rw [show descriptionLines "" = ([] : List String) from rfl, hfold]
    simp only [← afterFields_append]
    rw [flushFinal_afterFields, hst0]
    simp only [flushPairs_append]
    rw [e1, e2, e3, e4, e5, e6, e7, e8, e9, e10, e11, e12, e13, e14, e15, e16, e17, e18, e19, e20, e21]
  · obtain ⟨hh0, hh0t, hrest⟩ := hdr
    have hdne : ds ≠ "" := by
      intro e
      rw [e] at hh0
      exact hh0 rfl
    cases hsp : goSplit ds '\n' with
    | nil => exact absurd hsp (goSplit_ne_nil _ _)
    | cons l0 rest =>
      rw [hsp] at hh0 hh0t hrest
      have h0 : l0 ≠ "" := hh0
      have h0t : goTrim l0 = l0 := hh0t
      have hr : ∀ l ∈ rest, goHasPrefix l " " = true ∧ goTrim l ≠ "" ∧
          trimRightCh l.data = l.data := hrest
      have hmap : List.map descTailLine rest = rest := by
        have h1 : List.map descTailLine rest = List.map (fun l => l) rest :=
          List.map_congr_left (fun l hl => descTailLine_id l (hr l hl).1 (hr l hl).2.1)
        rw [h1, List.map_id']
      have hdesc : descriptionLines ds = optLine "Description" l0 ++ rest := by
        unfold descriptionLines
        rw [if_neg hdne, hsp]
        show optLine "Description" l0 ++ List.map descTailLine rest = _
        rw [hmap]
      rw [hdesc, fold_desc_block l0 rest _ h0 h0t (fun l hl => (hr l hl).1)]
      rw [foldl_nl_goJoin rest l0, ← hsp, goJoin_goSplit_nl]
      simp only [← afterFields_append]
      rw [flushFinal_afterFields, hst0]
      simp only [flushPairs_append]
      rw [e1, e2, e3, e4, e5, e6, e7, e8, e9, e10, e11, e12, e13, e14, e15, e16, e17, e18, e19, e20, e21]
      have htrim : goTrim ds = ds :=
        goTrim_desc ds l0 rest hsp h0 h0t (fun l hl => ⟨(hr l hl).2.1, (hr l hl).2.2⟩)
      show Metadata.mk pk vr ar mt (goTrim ds) sc pi ho es d1 d2 d3 d4 d5 d6 d7 d8 d9 bu so ex = Metadata.mk pk vr ar mt ds sc pi ho es d1 d2 d3 d4 d5 d6 d7 d8 d9 bu so ex
      rw [htrim]

/-- A package that survives the `.deb` write/read round trip up to
digest: well-formed metadata, payload destinations in the canonical
absolute shape the writer emits, distinct destinations, and extra
control files with distinct, unreserved, slash-free names and nonempty
contents. -/
def wfPackage (p : Package) : Prop :=
  wfMetadata p.metadata ∧
  (∀ f ∈ p.files,
    goHasPrefix f.destPath "/" = true ∧
    goHasPrefix (goTrimPrefix f.destPath "/") "./" = false ∧
    squashSlashes f.destPath.data = f.destPath.data ∧
    f.destPath.data.contains '\n' = false ∧
    goTrim f.destPath = f.destPath) ∧
  (p.files.map (fun f => f.destPath)).Nodup ∧
  (p.extraControlFiles.map Prod.fst).Nodup ∧
  (∀ kv ∈ p.extraControlFiles,
    kv.1 ∉ reservedNames ∧ kv.1 ≠ "" ∧ kv.1.data.contains '/' = false ∧
    goHasPrefix kv.1 "." = false ∧ kv.2 ≠ "")

/-- `filepath.Base` of `./<name>` for a slash-free name. -/
theorem baseName_dotslash (n : String) (h : n.data.contains '/' = false) :
    baseName ("./" ++ n) = n := by
  have hdata : ("./" ++ n).data = '.' :: '/' :: n.data := by
    rw [String.data_append]
    rfl
  have hnonempty : ("./" ++ n) ≠ "" := by
    intro e
    have h2 := congrArg String.data e
    rw [hdata] at h2
    cases h2
  unfold baseName
  rw [if_neg hnonempty, hdata]
  have h1 : splitCh '/' n.data = [n.data] := splitCh_of_not_contains '/' n.data h
  have h2 : splitCh '/' ('/' :: n.data) = [] :: [n.data] := by
    rw [splitCh, if_pos rfl, h1]
  have h3 : splitCh '/' ('.' :: '/' :: n.data) = ['.'] :: [n.data] := by
    rw [splitCh, if_neg (by decide), h2]
  rw [h3]
  rfl

/-- Appending a newline to a nonempty trim-stable string trims back to
the string. -/
theorem goTrim_append_nl (s : String) (h : goTrim s = s) (hne : s ≠ "") :
    goTrim (s ++ "\n") = s := by
  have hd : s.data ≠ [] := fun e => hne ((data_eq_nil_iff s).mp e)
  have hr := (goTrim_stable_both s h).2
  have hleft : trimLeftCh (s.data ++ ['\n']) = s.data ++ ['\n'] := by
    cases hc : s.data with
    | nil => exact absurd hc hd
    | cons c cs =>
      have hhead : isGoSpace c = false := goTrim_stable_head s h c (by rw [hc]; rfl)
      unfold trimLeftCh
      rw [List.cons_append,
        List.dropWhile_cons_of_neg (by rw [hhead]; exact Bool.false_ne_true)]
  have hright : trimRightCh (s.data ++ ['\n']) = s.data := by
    unfold trimRightCh
    rw [List.reverse_append]
    show (('\n' :: s.data.reverse).dropWhile isGoSpace).reverse = s.data
    rw [List.dropWhile_cons_of_pos (by rfl)]
    exact hr
  unfold goTrim
  rw [String.data_append]
  show String.mk (trimRightCh (trimLeftCh (s.data ++ ['\n']))) = s
  rw [hleft, hright, strMkData]

/-- Re-prepending the slash undoes the writer's prefix trim. -/
theorem slash_trim_append (d : String) (h : goHasPrefix d "/" = true) :
    "/" ++ goTrimPrefix d "/" = d := by
  refine strEqOfData _ _ ?_
  rw [String.data_append]
  unfold goTrimPrefix
  rw [if_pos h]
  show ['/'] ++ d.data.drop 1 = d.data
  exact (slash_head d h).symm

/-- The reader on the optional `conffiles` control member recovers the
flagged destinations. -/
theorem fold_conffiles_entry (fs : List PFile) (pkg : Package) (rest : List TarEntry)
    (h : ∀ x ∈ (fs.filter (fun f => f.isConf)).map (fun f => f.destPath),
      x ≠ "" ∧ x.data.contains '\n' = false ∧ goTrim x = x) :
    List.foldl applyControlEntry (pkg, ([] : List String)) (conffilesEntry fs ++ rest)
      = List.foldl applyControlEntry
          (pkg, (fs.filter (fun f => f.isConf)).map (fun f => f.destPath)) rest := by
  simp only [conffilesEntry]
  cases hcf : (fs.filter (fun f => f.isConf)).map (fun f => f.destPath) with
  | nil => rfl
  | cons x t =>
    rw [hcf] at h
    rw [if_neg (by simp), List.singleton_append, List.foldl_cons]
    have hall : ∀ z ∈ x :: t, z ≠ "" ∧ goTrim z = z :=
      fun z hz => ⟨(h z hz).1, (h z hz).2.2⟩
    have hnl : ∀ z ∈ x :: t, z.data.contains '\n' = false := fun z hz => (h z hz).2.1
    have hstep : applyControlEntry (pkg, ([] : List String))
        ⟨"./conffiles", 0o644, goJoin (x :: t) "\n" ++ "\n"⟩
        = (pkg, goSplit (goTrim (goJoin (x :: t) "\n" ++ "\n")) '\n') := rfl
    rw [hstep, goTrim_append_nl (goJoin (x :: t) "\n")
        (goTrim_goJoin "\n" (x :: t) hall)
        (goJoin_ne_empty x t "\n" (hall x (List.mem_cons_self x t)).1),
      goSplit_goJoin_nl (x :: t) (fun e => List.noConfusion e) hnl]

/-- The reader on the optional `preinst` member. -/
theorem fold_script1 (c s2 s3 s4 s5 : String) (md : Metadata) (fs : List PFile)
    (e : List (String × String)) (conf : List String) (rest : List TarEntry) :
    List.foldl applyControlEntry ((⟨md, ⟨"", s2, s3, s4, s5⟩, fs, e⟩ : Package), conf)
      ((if c = "" then [] else [⟨"./preinst", 0o755, c⟩]) ++ rest)
      = List.foldl applyControlEntry ((⟨md, ⟨c, s2, s3, s4, s5⟩, fs, e⟩ : Package), conf) rest := by
  rcases eq_or_ne c "" with hc | hc
  · rw [if_pos hc, List.nil_append, hc]
  · rw [if_neg hc, List.singleton_append, List.foldl_cons]
    rfl

/-- The reader on the optional `postinst` member. -/
theorem fold_script2 (c s1 s3 s4 s5 : String) (md : Metadata) (fs : List PFile)
    (e : List (String × String)) (conf : List String) (rest : List TarEntry) :
    List.foldl applyControlEntry ((⟨md, ⟨s1, "", s3, s4, s5⟩, fs, e⟩ : Package), conf)
      ((if c = "" then [] else [⟨"./postinst", 0o755, c⟩]) ++ rest)
      = List.foldl applyControlEntry ((⟨md, ⟨s1, c, s3, s4, s5⟩, fs, e⟩ : Package), conf) rest := by
  rcases eq_or_ne c "" with hc | hc
  · rw [if_pos hc, List.nil_append, hc]
  · rw [if_neg hc, List.singleton_append, List.foldl_cons]
    rfl

/-- The reader on the optional `prerm` member. -/
theorem fold_script3 (c s1 s2 s4 s5 : String) (md : Metadata) (fs : List PFile)
    (e : List (String × String)) (conf : List String) (rest : List TarEntry) :
    List.foldl applyControlEntry ((⟨md, ⟨s1, s2, "", s4, s5⟩, fs, e⟩ : Package), conf)
      ((if c = "" then [] else [⟨"./prerm", 0o755, c⟩]) ++ rest)
      = List.foldl applyControlEntry ((⟨md, ⟨s1, s2, c, s4, s5⟩, fs, e⟩ : Package), conf) rest := by
  rcases eq_or_ne c "" with hc | hc
  · rw [if_pos hc, List.nil_append, hc]
  · rw [if_neg hc, List.singleton_append, List.foldl_cons]
    rfl

/-- The reader on the optional `postrm` member. -/
theorem fold_script4 (c s1 s2 s3 s5 : String) (md : Metadata) (fs : List PFile)
    (e : List (String × String)) (conf : List String) (rest : List TarEntry) :
    List.foldl applyControlEntry ((⟨md, ⟨s1, s2, s3, "", s5⟩, fs, e⟩ : Package), conf)
      ((if c = "" then [] else [⟨"./postrm", 0o755, c⟩]) ++ rest)
      = List.foldl applyControlEntry ((⟨md, ⟨s1, s2, s3, c, s5⟩, fs, e⟩ : Package), conf) rest := by
  rcases eq_or_ne c "" with hc | hc
  · rw [if_pos hc, List.nil_append, hc]
  · rw [if_neg hc, List.singleton_append, List.foldl_cons]
    rfl

/-- The reader on the optional `config` member. -/
theorem fold_script5 (c s1 s2 s3 s4 : String) (md : Metadata) (fs : List PFile)
    (e : List (String × String)) (conf : List String) (rest : List TarEntry) :
    List.foldl applyControlEntry ((⟨md, ⟨s1, s2, s3, s4, ""⟩, fs, e⟩ : Package), conf)
      ((if c = "" then [] else [⟨"./config", 0o755, c⟩]) ++ rest)
      = List.foldl applyControlEntry ((⟨md, ⟨s1, s2, s3, s4, c⟩, fs, e⟩ : Package), conf) rest := by
  rcases eq_or_ne c "" with hc | hc
  · rw [if_pos hc, List.nil_append, hc]
  · rw [if_neg hc, List.singleton_append, List.foldl_cons]
    rfl

/-- The reader files an unreserved, non-dot entry under
`ExtraControlFiles`. -/
theorem applyControlEntry_extra (pkg : Package) (conf : List String) (e : TarEntry)
    (hb : baseName e.name ∉ reservedNames)
    (hp : goHasPrefix (baseName e.name) "." = false) :
    applyControlEntry (pkg, conf) e
      = ({ pkg with extraControlFiles :=
            mapInsert pkg.extraControlFiles (baseName e.name) e.body }, conf) := by
  simp only [reservedNames, List.mem_cons, List.not_mem_nil, or_false, not_or] at hb
  obtain ⟨r1, r2, r3, r4, r5, r6, r7, r8⟩ := hb
  unfold applyControlEntry
  dsimp only
  rw [if_neg r1, if_neg r3, if_neg r4, if_neg r5, if_neg r6, if_neg r7, if_neg r8, if_neg r2,
    hp, if_neg Bool.false_ne_true]

/-- The writer's filter keeps every unreserved nonempty extra file. -/
theorem filterMap_extra : ∀ (l : List String) (ecf : List (String × String)),
    (∀ n ∈ l, n ∉ reservedNames ∧ lookupD ecf n ≠ "") →
    l.filterMap (fun n =>
      if n ∈ reservedNames then none
      else if lookupD ecf n = "" then none
      else some (⟨"./" ++ n, 0o644, lookupD ecf n⟩ : TarEntry))
    = l.map (fun n => (⟨"./" ++ n, 0o644, lookupD ecf n⟩ : TarEntry)) := by
  intro l
  induction l with
  | nil => intro ecf h; rfl
  | cons n t ih =>
    intro ecf h
    have hf : (fun n =>
        if n ∈ reservedNames then none
        else if lookupD ecf n = "" then none
        else some (⟨"./" ++ n, 0o644, lookupD ecf n⟩ : TarEntry)) n
        = some (⟨"./" ++ n, 0o644, lookupD ecf n⟩ : TarEntry) := by
      show (if n ∈ reservedNames then none
        else if lookupD ecf n = "" then none
        else some (⟨"./" ++ n, 0o644, lookupD ecf n⟩ : TarEntry))
        = some (⟨"./" ++ n, 0o644, lookupD ecf n⟩ : TarEntry)
      rw [if_neg (h n (List.mem_cons_self _ _)).1, if_neg (h n (List.mem_cons_self _ _)).2]
    rw [List.filterMap_cons_some
        (f := fun n => if n ∈ reservedNames then none
          else if lookupD ecf n = "" then none
          else some (⟨"./" ++ n, 0o644, lookupD ecf n⟩ : TarEntry))
        (a := n) (l := t) hf,
      List.map_cons, ih ecf (fun z hz => h z (List.mem_cons_of_mem _ hz))]

/-- `extraControlEntries` on a well-formed map is the sorted-key map of
plain entries. -/
theorem extraControlEntries_eq (ecf : List (String × String))
    (hn : (ecf.map Prod.fst).Nodup)
    (hs : ∀ kv ∈ ecf, kv.1 ∉ reservedNames ∧ kv.2 ≠ "") :
    extraControlEntries ecf
      = (sortedKeys ecf).map (fun n => (⟨"./" ++ n, 0o644, lookupD ecf n⟩ : TarEntry)) := by
  unfold extraControlEntries
  refine filterMap_extra (sortedKeys ecf) ecf ?_
  intro n hn'
  have hk : n ∈ ecf.map Prod.fst := (sortStrings_perm _).mem_iff.mp hn'
  rcases List.mem_map.mp hk with ⟨kv, hkv, he⟩
  have hkv2 : (n, kv.2) ∈ ecf := by
    obtain ⟨k, v⟩ := kv
    cases he
    exact hkv
  have hlook : lookupD ecf n = kv.2 := by
    unfold lookupD
    rw [lookup_eq_some_of_mem ecf n kv.2 hn hkv2]
    rfl
  exact ⟨he ▸ (hs kv hkv).1, by rw [hlook]; exact (hs kv hkv).2⟩

/-- Folding the extra control entries accumulates the map inserts. -/
theorem fold_extra_map : ∀ (ks : List String) (ecf acc : List (String × String))
    (md : Metadata) (scr : Scripts) (fs : List PFile) (conf : List String)
    (rest : List TarEntry),
    (∀ n ∈ ks, n ∉ reservedNames ∧ n.data.contains '/' = false ∧
      goHasPrefix n "." = false) →
    List.foldl applyControlEntry ((⟨md, scr, fs, acc⟩ : Package), conf)
      ((ks.map (fun n => (⟨"./" ++ n, 0o644, lookupD ecf n⟩ : TarEntry))) ++ rest)
      = List.foldl applyControlEntry
          ((⟨md, scr, fs, ks.foldl (fun a n => mapInsert a n (lookupD ecf n)) acc⟩ : Package),
            conf) rest := by
  intro ks
  induction ks with
  | nil => intro ecf acc md scr fs conf rest _; rfl
  | cons n t ih =>
    intro ecf acc md scr fs conf rest h
    obtain ⟨h1, h2, h3⟩ := h n (List.mem_cons_self _ _)
    rw [List.map_cons, List.cons_append, List.foldl_cons]
    have hb : baseName (TarEntry.name ⟨"./" ++ n, 0o644, lookupD ecf n⟩) ∉ reservedNames := by
      show baseName ("./" ++ n) ∉ reservedNames
      rw [baseName_dotslash n h2]
      exact h1
    have hpx : goHasPrefix (baseName (TarEntry.name ⟨"./" ++ n, 0o644, lookupD ecf n⟩)) "."
        = false := by
      show goHasPrefix (baseName ("./" ++ n)) "." = false
      rw [baseName_dotslash n h2]
      exact h3
    rw [applyControlEntry_extra (⟨md, scr, fs, acc⟩ : Package) conf _ hb hpx]
    dsimp only
    rw [baseName_dotslash n h2]
    exact ih ecf (mapInsert acc n (lookupD ecf n)) md scr fs conf rest
      (fun z hz => h z (List.mem_cons_of_mem _ hz))

/-- Sequential fresh map inserts append the pairs in order. -/
theorem foldl_mapInsert_fresh : ∀ (ks : List String) (ecf acc : List (String × String)),
    (acc.map Prod.fst ++ ks).Nodup →
    ks.foldl (fun a n => mapInsert a n (lookupD ecf n)) acc
      = acc ++ ks.map (fun n => (n, lookupD ecf n)) := by
  intro ks
  induction ks with
  | nil =>
    intro ecf acc _
    rw [List.map_nil, List.append_nil]
    rfl
  | cons n t ih =>
    intro ecf acc hn
    have hfresh : ∀ z ∈ acc, z.1 ≠ n := by
      intro z hz he
      have hd := (List.nodup_append.mp hn).2.2
      refine hd (List.mem_map_of_mem Prod.fst hz) ?_
      rw [he]
      exact List.mem_cons_self _ _
    rw [List.foldl_cons, mapInsert_fresh acc n (lookupD ecf n) hfresh,
      ih ecf (acc ++ [(n, lookupD ecf n)]) ?hn2]
    · rw [List.map_cons, List.append_assoc, List.singleton_append]
    case hn2 =>
      rw [List.map_append, List.append_assoc]
      show (acc.map Prod.fst ++ ([(n, lookupD ecf n)].map Prod.fst ++ t)).Nodup
      exact hn

/-- The reader rebuilds each payload file at its original destination
(conffile flags pending). -/
theorem fold_data_entries : ∀ (fs : List PFile) (md : Metadata) (scr : Scripts)
    (g : List PFile) (e : List (String × String)),
    (∀ f ∈ fs, goHasPrefix f.destPath "/" = true ∧
      goHasPrefix (goTrimPrefix f.destPath "/") "./" = false ∧
      squashSlashes f.destPath.data = f.destPath.data) →
    List.foldl applyDataEntry (⟨md, scr, g, e⟩ : Package) (dataEntries fs)
      = (⟨md, scr, g ++ fs.map (fun f => (⟨f.destPath, f.mode, f.body, false⟩ : PFile)), e⟩
          : Package) := by
  intro fs
  induction fs with
  | nil =>
    intro md scr g e _
    rw [List.map_nil, List.append_nil]
    rfl
  | cons f t ih =>
    intro md scr g e h
    obtain ⟨h1, h2, h3⟩ := h f (List.mem_cons_self _ _)
    have hhead : (if goHasPrefix (goTrimPrefix f.destPath "/") "./" = true
        then goTrimPrefix f.destPath "/" else "./" ++ goTrimPrefix f.destPath "/")
        = "./" ++ goTrimPrefix f.destPath "/" := by
      rw [h2, if_neg Bool.false_ne_true]
    rw [show dataEntries (f :: t)
        = (⟨(if goHasPrefix (goTrimPrefix f.destPath "/") "./" = true
            then goTrimPrefix f.destPath "/" else "./" ++ goTrimPrefix f.destPath "/"),
            f.mode, f.body⟩ : TarEntry) :: dataEntries t from rfl,
      hhead, List.foldl_cons]
    have hstep : applyDataEntry (⟨md, scr, g, e⟩ : Package)
        ⟨"./" ++ goTrimPrefix f.destPath "/", f.mode, f.body⟩
        = (⟨md, scr, g ++ [⟨f.destPath, f.mode, f.body, false⟩], e⟩ : Package) := by
      show (⟨md, scr, g ++
        [⟨⟨squashSlashes ("/" ++ goTrimPrefix ("./" ++ goTrimPrefix f.destPath "/") "./").data⟩,
          f.mode, f.body, false⟩], e⟩ : Package) = _
      rw [goTrimPrefix_append_self "./" (goTrimPrefix f.destPath "/"),
        slash_trim_append f.destPath h1, h3, strMkData]
    rw [hstep, ih md scr _ e (fun z hz => h z (List.mem_cons_of_mem _ hz)),
      List.map_cons, List.append_assoc, List.singleton_append]

/-- Restoring the conffile flags from the recovered list reproduces the
original payload files. -/
theorem flag_restore (fs : List PFile)
    (hn : (fs.map (fun f => f.destPath)).Nodup) :
    (fs.map (fun f => (⟨f.destPath, f.mode, f.body, false⟩ : PFile))).map
      (fun f => if f.destPath ∈ (fs.filter (fun f => f.isConf)).map (fun f => f.destPath)
        then { f with isConf := true } else f)
      = fs := by
  rw [List.map_map]
  have hcong : fs.map ((fun f => if f.destPath ∈
        (fs.filter (fun f => f.isConf)).map (fun f => f.destPath)
        then { f with isConf := true } else f) ∘
      (fun f => (⟨f.destPath, f.mode, f.body, false⟩ : PFile)))
      = fs.map (fun f => f) := by
    refine List.map_congr_left ?_
    intro f hf
    show (if f.destPath ∈ (fs.filter (fun f => f.isConf)).map (fun f => f.destPath)
      then (⟨f.destPath, f.mode, f.body, true⟩ : PFile)
      else (⟨f.destPath, f.mode, f.body, false⟩ : PFile)) = f
    cases hc : f.isConf with
    | true =>
      have hmem : f.destPath ∈ (fs.filter (fun f => f.isConf)).map (fun f => f.destPath) :=
        List.mem_map_of_mem _ (List.mem_filter.mpr ⟨hf, hc⟩)
      rw [if_pos hmem]
      cases f
      rw [← hc]
    | false =>
      have hmem : f.destPath ∉ (fs.filter (fun f => f.isConf)).map (fun f => f.destPath) := by
        intro hm
        rcases List.mem_map.mp hm with ⟨g, hg, he⟩
        have hgf := List.mem_of_mem_filter hg
        have hgc := List.of_mem_filter hg
        have heq := List.inj_on_of_nodup_map hn hgf hf he
        rw [heq] at hgc
        rw [hc] at hgc
        cases hgc
      rw [if_neg hmem]
      cases f
      rw [← hc]
  rw [hcong, List.map_id']

/-- `newPackage` after `writeToDeb`: walk the three members. -/
theorem newPackage_writeToDeb (md5Hex : String → String) (P : Package) :
    newPackage (writeToDeb md5Hex P)
      = Except.ok
          (let st := (controlEntries md5Hex P).foldl applyControlEntry
              ((⟨Metadata.empty, Scripts.empty, [], []⟩ : Package), ([] : List String))
           let pkg := (dataEntries P.files).foldl applyDataEntry st.1
           (⟨pkg.metadata, pkg.scripts,
             pkg.files.map (fun f =>
               if f.destPath ∈ st.2.filter (fun cf => cf ≠ "") then { f with isConf := true }
               else f),
             pkg.extraControlFiles⟩ : Package)) := rfl

/-- The full control-archive read of a well-formed package recovers the
metadata, scripts, conffile list, and (key-sorted) extra control
files. -/
theorem control_fold_eval (md5Hex : String → String) (md : Metadata)
    (c1 c2 c3 c4 c5 : String) (fs : List PFile) (ecf : List (String × String))
    (hwm : wfMetadata md)
    (hfs : ∀ f ∈ fs, goHasPrefix f.destPath "/" = true ∧
      goHasPrefix (goTrimPrefix f.destPath "/") "./" = false ∧
      squashSlashes f.destPath.data = f.destPath.data ∧
      f.destPath.data.contains '\n' = false ∧ goTrim f.destPath = f.destPath)
    (hen : (ecf.map Prod.fst).Nodup)
    (hes : ∀ kv ∈ ecf, kv.1 ∉ reservedNames ∧ kv.1 ≠ "" ∧ kv.1.data.contains '/' = false ∧
      goHasPrefix kv.1 "." = false ∧ kv.2 ≠ "") :
    (controlEntries md5Hex (⟨md, ⟨c1, c2, c3, c4, c5⟩, fs, ecf⟩ : Package)).foldl
        applyControlEntry
        ((⟨Metadata.empty, Scripts.empty, [], []⟩ : Package), ([] : List String))
      = ((⟨md, ⟨c1, c2, c3, c4, c5⟩, [],
          (sortedKeys ecf).map (fun n => (n, lookupD ecf n))⟩ : Package),
         (fs.filter (fun f => f.isConf)).map (fun f => f.destPath)) := by
  have hcfh : ∀ x ∈ (fs.filter (fun f => f.isConf)).map (fun f => f.destPath),
      x ≠ "" ∧ x.data.contains '\n' = false ∧ goTrim x = x := by
    intro x hx
    rcases List.mem_map.mp hx with ⟨f, hf, he⟩
    obtain ⟨hp1, _, _, hp4, hp5⟩ := hfs f (List.mem_of_mem_filter hf)
    subst he
    refine ⟨?_, hp4, hp5⟩
    intro e
    rw [e] at hp1
    exact absurd (show (false : Bool) = true from hp1) Bool.false_ne_true
  have hks : ∀ n ∈ sortedKeys ecf, n ∉ reservedNames ∧ n.data.contains '/' = false ∧
      goHasPrefix n "." = false := by
    intro n hn'
    have hk : n ∈ ecf.map Prod.fst := (sortStrings_perm _).mem_iff.mp hn'
    rcases List.mem_map.mp hk with ⟨kv, hkv, he⟩
    obtain ⟨q1, _, q3, q4, _⟩ := hes kv hkv
    exact ⟨he ▸ q1, he ▸ q3, he ▸ q4⟩
  simp only [controlEntries, scriptEntries, List.append_assoc]
  rw [List.foldl_cons, List.foldl_cons]
  have h1 : applyControlEntry
      ((⟨Metadata.empty, Scripts.empty, [], []⟩ : Package), ([] : List String))
      ⟨"./control", 0o644, generateControlFile md (payloadBytes fs)⟩
      = ((⟨parseLines (goSplit (generateControlFile md (payloadBytes fs)) '\n') Metadata.empty,
          ⟨"", "", "", "", ""⟩, [], []⟩ : Package), ([] : List String)) := rfl
  rw [h1, parse_generate md (payloadBytes fs) hwm]
  have h2 : applyControlEntry ((⟨md, ⟨"", "", "", "", ""⟩, [], []⟩ : Package), ([] : List String))
      ⟨"./md5sums", 0o644, generateMd5sums md5Hex fs⟩
      = ((⟨md, ⟨"", "", "", "", ""⟩, [], []⟩ : Package), ([] : List String)) := rfl
  rw [h2]
  rw [fold_conffiles_entry fs _ _ hcfh]
  rw [fold_script1 c1 "" "" "" "" md [] []]
  rw [fold_script2 c2 c1 "" "" "" md [] []]
  rw [fold_script3 c3 c1 c2 "" "" md [] []]
  rw [fold_script4 c4 c1 c2 c3 "" md [] []]
  rw [fold_script5 c5 c1 c2 c3 c4 md [] []]
  rw [extraControlEntries_eq ecf hen
    (fun kv hkv => ⟨(hes kv hkv).1, (hes kv hkv).2.2.2.2⟩)]
  rw [← List.append_nil
    ((sortedKeys ecf).map (fun n => (⟨"./" ++ n, 0o644, lookupD ecf n⟩ : TarEntry)))]
  rw [fold_extra_map (sortedKeys ecf) ecf [] md ⟨c1, c2, c3, c4, c5⟩ [] _ _ hks]
  rw [foldl_mapInsert_fresh (sortedKeys ecf) ecf []
    (by exact (sortStrings_perm (ecf.map Prod.fst)).nodup_iff.mpr hen)]
  rw [List.nil_append]
  rfl

/-- C4 (amended): writing a well-formed package to a `.deb` and reading
it back yields a package with the same digest; the extra control files
come back key-sorted, which the digest does not see. -/
theorem roundtrip_digest_of_wellformed (md5Hex : String → String) (p : Package)
    (hw : wfPackage p) :
    (newPackage (writeToDeb md5Hex p)).map digest = Except.ok (digest p) := by
  obtain ⟨hwm, hfs, hnd, hen, hes⟩ := hw
  cases p with
  | mk md scr fs ecf =>
  cases scr with
  | mk c1 c2 c3 c4 c5 =>
  have hperm : ((sortedKeys ecf).map (fun n => (n, lookupD ecf n))).Perm ecf :=
    sorted_pairs_perm ecf hen
  have hnodS : (((sortedKeys ecf).map (fun n => (n, lookupD ecf n))).map Prod.fst).Nodup := by
    have hk : ((sortedKeys ecf).map (fun n => (n, lookupD ecf n))).map Prod.fst
        = sortedKeys ecf := by
      rw [List.map_map]
      exact (List.map_congr_left (fun a ha => rfl)).trans (List.map_id' _)
    rw [hk]
    exact (sortStrings_perm (ecf.map Prod.fst)).nodup_iff.mpr hen
  have hdig : digest (⟨md, ⟨c1, c2, c3, c4, c5⟩, fs,
      (sortedKeys ecf).map (fun n => (n, lookupD ecf n))⟩ : Package)
      = digest (⟨md, ⟨c1, c2, c3, c4, c5⟩, fs, ecf⟩ : Package) := by
    unfold digest
    rw [set_installedSize, set_installedSize]
    unfold digestStream
    dsimp only
    rw [absorbKV_perm ((sortedKeys ecf).map (fun n => (n, lookupD ecf n))) ecf hperm hnodS]
  have hfe : ((fs.filter (fun f => f.isConf)).map (fun f => f.destPath)).filter
      (fun cf => cf ≠ "") = (fs.filter (fun f => f.isConf)).map (fun f => f.destPath) := by
    refine List.filter_eq_self.mpr ?_
    intro x hx
    rcases List.mem_map.mp hx with ⟨f, hf, he⟩
    obtain ⟨hp1, _, _, _, _⟩ := hfs f (List.mem_of_mem_filter hf)
    subst he
    refine decide_eq_true ?_
    intro e
    rw [e] at hp1
    exact absurd (show (false : Bool) = true from hp1) Bool.false_ne_true
  rw [newPackage_writeToDeb md5Hex (⟨md, ⟨c1, c2, c3, c4, c5⟩, fs, ecf⟩ : Package)]
  dsimp only [Except.map]
  rw [control_fold_eval md5Hex md c1 c2 c3 c4 c5 fs ecf hwm hfs hen hes]
  dsimp only
  rw [fold_data_entries fs md ⟨c1, c2, c3, c4, c5⟩ []
    ((sortedKeys ecf).map (fun n => (n, lookupD ecf n)))
    (fun f hf => ⟨(hfs f hf).1, (hfs f hf).2.1, (hfs f hf).2.2.1⟩)]
  dsimp only
  rw [List.nil_append, hfe, flag_restore fs hnd, hdig]

instance (s : String) : Decidable (lineSafe s) := by
  unfold lineSafe
  infer_instance

instance (l : List String) : Decidable (listSafe l) := by
  unfold listSafe
  infer_instance

instance (d : String) : Decidable (descSafe d) := by
  unfold descSafe
  infer_instance

instance (kv : String × String) : Decidable (extraPairSafe kv) := by
  unfold extraPairSafe
  infer_instance

instance (m : Metadata) : Decidable (wfMetadata m) := by
  unfold wfMetadata
  infer_instance

instance (p : Package) : Decidable (wfPackage p) := by
  unfold wfPackage
  infer_instance

/-- Witness for the amended C4 round trip: the scenario-1 package is
well-formed and survives the write/read cycle digest-intact. -/
theorem roundtrip_digest_of_wellformed_witness :
    wfPackage helloPkg ∧
    (newPackage (writeToDeb (fun s => s) helloPkg)).map digest
      = Except.ok (digest helloPkg) := by
  have hwf : wfPackage helloPkg := by decide
  exact ⟨hwf, roundtrip_digest_of_wellformed (fun s => s) helloPkg hwf⟩

end AptRepo
